import Mathlib

/-!
# Debouncer (`debounce.go`): shallow embedding and verified properties

The Go package keeps one `debouncer` record per call of `New`:

* `after` : the configured `time.Duration` (a signed 64-bit count of nanoseconds),
* `reps`  : a `uint64` threshold,
* `count` : a `uint64` counter,
* `timer` : a `*time.Timer`, `nil` until the first timer is created.

`add` runs under the mutex, so in the first part each call is one atomic transition; the
second part (goroutines and the mutex) splits `add` into its statements and shows that
concurrent calls behave like the atomic ones taken in lock-acquisition order.  The timers
created by `time.AfterFunc` live in the Go runtime; they are modelled as a heap
(a list indexed by timer id) in which every timer carries its delay, its
function and a status.  A timer that is still armed may fire at any moment the
runtime chooses; this is the `expire` transition.  Submitted functions are
opaque values of a type `α`; calling one is recorded in an event log.

A function called inline by `add` (line 47) either returns or panics.  In the second case
the panic leaves `add` at once: line 48 is skipped and only the deferred `Unlock` runs.  A
caller that recovers from the panic goes on using the debouncer, so both outcomes are
transitions of the model (`add` and `addPanic`).  A panic of a function called by a timer
happens in a goroutine of the runtime and ends the program, so no transition follows it.
-/

namespace Debounce

/-! ## Data model -/

/-- Modulus of the `uint64` arithmetic used for `reps` and `count`. -/
def uint64Mod : Nat := 2 ^ 64

/-- Life cycle of a runtime timer created by `time.AfterFunc`. -/
inductive TimerStatus where
  | armed
  | fired
  | stopped
  deriving DecidableEq, Repr

/-- A runtime timer: the delay it was created with, the function it will call and its status. -/
structure Timer (α : Type) where
  delay : Int
  f : α
  status : TimerStatus
  deriving DecidableEq, Repr

/-- An observable call of a submitted function: either inline inside `add` (`f()` on line 47)
or from the goroutine started by the runtime when timer `tid` fires. -/
inductive Event (α : Type) where
  | sync (f : α)
  | fired (tid : Nat) (f : α)
  deriving DecidableEq, Repr

/-- The `debouncer` struct (the mutex is not part of the data). `timer` is the id of a
runtime timer, or `none` for the `nil` pointer. -/
structure debouncer where
  after : Int
  timer : Option Nat
  reps : Nat
  count : Nat
  deriving DecidableEq, Repr

/-- The debouncer together with the runtime timers it has created and the log of calls made. -/
structure World (α : Type) where
  d : debouncer
  timers : List (Timer α)
  log : List (Event α)
  deriving DecidableEq, Repr

/-! ## Runtime timer operations -/

/-- Effect of `(*time.Timer).Stop` on one timer: an armed timer becomes stopped, a timer that
has fired or has been stopped is left as it is. -/
def Timer.stop {α : Type} (t : Timer α) : Timer α :=
  match t.status with
  | TimerStatus.armed => { t with status := TimerStatus.stopped }
  | _ => t

/-- Effect of the runtime firing one timer: only an armed timer fires. -/
def Timer.fire {α : Type} (t : Timer α) : Timer α :=
  match t.status with
  | TimerStatus.armed => { t with status := TimerStatus.fired }
  | _ => t

/-- Apply `g` to the timer with id `tid` of the heap; other timers are untouched. -/
def updateAt {α : Type} (g : Timer α → Timer α) : Nat → List (Timer α) → List (Timer α)
  | _, [] => []
  | 0, t :: ts => g t :: ts
  | tid + 1, t :: ts => t :: updateAt g tid ts

/-- The expression `time.AfterFunc(after, f)`: allocates a new armed timer and returns its id
together with the new heap. -/
def AfterFunc {α : Type} (heap : List (Timer α)) (after : Int) (f : α) : Nat × List (Timer α) :=
  (heap.length, heap ++ [{ delay := after, f := f, status := TimerStatus.armed }])

/-- Ids of the timers of a heap that are armed (neither fired nor stopped), numbered from `k`. -/
def armedIds {α : Type} : Nat → List (Timer α) → List Nat
  | _, [] => []
  | k, t :: ts =>
    if t.status = TimerStatus.armed then k :: armedIds (k + 1) ts else armedIds (k + 1) ts

/-- The pending timers of a world: ids of all armed timers. -/
def pending {α : Type} (w : World α) : List Nat := armedIds 0 w.timers

/-! ## The program -/

/-- The state built by `New(after, reps)`: `&debouncer{after: after, reps: reps}`, with no
timer created and nothing called yet. -/
def New {α : Type} (after : Int) (reps : Nat) : World α :=
  { d := { after := after, timer := none, reps := reps, count := 0 }, timers := [], log := [] }

/-- Lines 42-44 of `add`: `if d.timer != nil { d.timer.Stop() }`. -/
def stopTimer {α : Type} (w : World α) : World α :=
  match w.d.timer with
  | none => w
  | some tid => { w with timers := updateAt Timer.stop tid w.timers }

/-- Lines 46-52 of `add` when the call `f()` of line 47, if it is made, returns: the choice
between calling `f` inline and arming a timer. (`releasePanic` is the other case.) -/
def release {α : Type} (w : World α) (f : α) : World α :=
  if w.d.count = w.d.reps then
    { w with log := w.log ++ [Event.sync f], d := { w.d with count := 0 } }
  else
    let r := AfterFunc w.timers w.d.after f
    { w with
      d := { w.d with count := (w.d.count + 1) % uint64Mod, timer := some r.1 }
      timers := r.2 }

/-- The method `debouncer.add`, one atomic transition (the body runs under `d.mu`), for a call
in which `f()` returns if it is made inline. -/
def add {α : Type} (w : World α) (f : α) : World α :=
  release (stopTimer w) f

/-- Lines 46-52 of `add` when the call `f()` of line 47, if it is made, panics: `f` has been
called, the panic leaves `add` before line 48, so `d.count = 0` is not executed (the deferred
`Unlock` is all that still runs). On the delay path `f` is not called by `add` and nothing
differs from `release`. -/
def releasePanic {α : Type} (w : World α) (f : α) : World α :=
  if w.d.count = w.d.reps then
    { w with log := w.log ++ [Event.sync f] }
  else
    let r := AfterFunc w.timers w.d.after f
    { w with
      d := { w.d with count := (w.d.count + 1) % uint64Mod, timer := some r.1 }
      timers := r.2 }

/-- The method `debouncer.add` for a call in which `f()` panics if it is made inline, and the
caller recovers from the panic. -/
def addPanic {α : Type} (w : World α) (f : α) : World α :=
  releasePanic (stopTimer w) f

/-- The runtime fires timer `tid`: if it is armed its function is called (in its own
goroutine) and the timer is marked as fired; otherwise nothing happens. -/
def expire {α : Type} (w : World α) (tid : Nat) : World α :=
  match w.timers[tid]? with
  | some t =>
    if t.status = TimerStatus.armed then
      { w with timers := updateAt Timer.fire tid w.timers, log := w.log ++ [Event.fired tid t.f] }
    else w
  | none => w

/-- One transition of the system: a call of the debounced function with a function that
returns when it is called (`submit`), a call with a function that panics when it is called, the
caller recovering (`submitPanic`), or a timer expiry. -/
inductive Step (α : Type) where
  | submit (f : α)
  | submitPanic (f : α)
  | expire (tid : Nat)
  deriving DecidableEq, Repr

/-- Effect of one transition. -/
def step {α : Type} (w : World α) : Step α → World α
  | Step.submit f => add w f
  | Step.submitPanic f => addPanic w f
  | Step.expire tid => expire w tid

/-- Effect of a trace of transitions, left to right. -/
def run {α : Type} (w : World α) (tr : List (Step α)) : World α :=
  tr.foldl step w

/-- A state is reachable when some trace leads to it from `New(after, reps)` with `reps` a
`uint64` value. -/
def Reachable {α : Type} (w : World α) : Prop :=
  ∃ (after : Int) (reps : Nat) (tr : List (Step α)), reps < uint64Mod ∧ run (New after reps) tr = w

/-- Number of calls of the debounced function in a trace. -/
def submits {α : Type} : List (Step α) → Nat
  | [] => 0
  | Step.submit _ :: tr => submits tr + 1
  | Step.submitPanic _ :: tr => submits tr + 1
  | Step.expire _ :: tr => submits tr

/-- A trace without any call of the debounced function (timer expiries only). -/
def quiet {α : Type} : List (Step α) → Bool
  | [] => true
  | Step.submit _ :: _ => false
  | Step.submitPanic _ :: _ => false
  | Step.expire _ :: tr => quiet tr

/-- A trace in which every submitted function is one that returns when it is called (no
`submitPanic` transition occurs). -/
def calm {α : Type} : List (Step α) → Bool
  | [] => true
  | Step.submit _ :: tr => calm tr
  | Step.submitPanic _ :: _ => false
  | Step.expire _ :: tr => calm tr

/-- The functions called by firings of timer `tid`, as recorded in a log. -/
def firings {α : Type} (tid : Nat) : List (Event α) → List α
  | [] => []
  | Event.sync _ :: es => firings tid es
  | Event.fired i f :: es => if i = tid then f :: firings tid es else firings tid es

/-- The functions called inline by `add`, as recorded in a log. -/
def syncCalls {α : Type} : List (Event α) → List α
  | [] => []
  | Event.sync f :: es => f :: syncCalls es
  | Event.fired _ _ :: es => syncCalls es

/-- Go's conversion `uint64(n)` of a signed integer: the value modulo `2^64`. -/
def uint64OfInt (n : Int) : Nat := (n % (2 ^ 64 : Int)).toNat

/-- Three distinguishable functions for the worked examples. -/
inductive Job where
  | A
  | B
  | C
  deriving DecidableEq, Repr

/-- What the log must contain for timer `tid`, given the timer's heap entry: its function,
once, when it has fired, and nothing otherwise. -/
def expectedFirings {α : Type} : Option (Timer α) → List α
  | some t => if t.status = TimerStatus.fired then [t.f] else []
  | none => []

/-- Invariant of the reachable states. -/
structure Inv {α : Type} (w : World α) : Prop where
  reps_lt : w.d.reps < uint64Mod
  count_le : w.d.count ≤ w.d.reps
  stored_lt : ∀ i : Nat, w.d.timer = some i → i < w.timers.length
  armed_stored : ∀ (i : Nat) (t : Timer α),
    w.timers[i]? = some t → t.status = TimerStatus.armed → w.d.timer = some i
  delay_eq : ∀ (i : Nat) (t : Timer α), w.timers[i]? = some t → t.delay = w.d.after
  firings_eq : ∀ i : Nat, firings i w.log = expectedFirings w.timers[i]?

/-- State reached from `New(50ms, 3)` by three calls in a row, with functions `A`, `B`, `C`
(durations are in milliseconds here). -/
def burst3 : World Job :=
  run (New 50 3) [Step.submit Job.A, Step.submit Job.B, Step.submit Job.C]

/-- State reached from `New(50ms, 3)` by one call, with function `A`: its timer is pending. -/
def afterA : World Job :=
  run (New 50 3) [Step.submit Job.A]

/-- State of a debouncer with threshold `N` whose only call so far was `add(f)` on the delay
path: `count` is 1 and timer 0, for `f`, is armed. -/
def singleArmed {α : Type} (D : Int) (N : Nat) (f : α) : World α :=
  { d := { after := D, timer := some 0, reps := N, count := 1 }
    timers := [{ delay := D, f := f, status := TimerStatus.armed }]
    log := [] }

/-- The state `singleArmed` after timer 0 has fired: `f` has been called once, by the timer. -/
def singleFired {α : Type} (D : Int) (N : Nat) (f : α) : World α :=
  { d := { after := D, timer := some 0, reps := N, count := 1 }
    timers := [{ delay := D, f := f, status := TimerStatus.fired }]
    log := [Event.fired 0 f] }

/-- State reached from `New(50ms, 3)` by `add(A)` followed by the expiry of its timer: the
stored timer has already fired. -/
def firedA : World Job :=
  run (New 50 3) [Step.submit Job.A, Step.expire 0]

/-! ## Goroutines and the mutex

The sequential model above treats `add` as one atomic transition.  The definitions below
split `add` into its statements and let several goroutines run it at once, together with the
mutex `d.mu`.  A submitted function is still a value of `α`; what it does when it is called is
given by `body`: `body f = some g` when `f` itself calls the debounced function (with `g`),
`body f = none` when it does not touch the debouncer.  In this part a function that is
called returns. -/

/-- Program points of `add`: the statement a goroutine is about to execute. -/
inductive Pc where
  | lock
  | stop
  | test
  | call
  | inCall
  | reset
  | incr
  | arm
  | unlock
  deriving DecidableEq, Repr

/-- One activation of `add(f)`: its program point and its argument. `lock` is line 39,
`stop` lines 42-44, `test` line 46, `call` line 47, `inCall` the wait for `f()` to return,
`reset` line 48, `incr` line 50, `arm` line 51 and `unlock` the deferred `d.mu.Unlock()`. -/
structure Frame (α : Type) where
  pc : Pc
  f : α
  deriving DecidableEq, Repr

/-- The whole system: the debouncer and its timers, the state of `d.mu`, and the call stack of
every goroutine (top frame first; the empty stack is a goroutine that has finished). -/
structure Config (α : Type) where
  w : World α
  locked : Bool
  threads : List (List (Frame α))
  deriving DecidableEq, Repr

/-- What the scheduler and the runtime may do next: let goroutine `i` execute one statement, or
let timer `tid` expire. -/
inductive Choice where
  | thread (i : Nat)
  | expire (tid : Nat)
  deriving DecidableEq, Repr

/-- Goroutine `i`, whose top frame is `fr` above `rest`, executes one statement. `Lock` on a
locked mutex blocks: the configuration is unchanged. -/
def frameStep {α : Type} (body : α → Option α) (c : Config α) (i : Nat) (fr : Frame α)
    (rest : List (Frame α)) : Config α :=
  match fr.pc with
  | Pc.lock =>
    if c.locked then c
    else { c with locked := true, threads := c.threads.set i ({ pc := Pc.stop, f := fr.f } :: rest) }
  | Pc.stop =>
    { c with
      w := stopTimer c.w
      threads := c.threads.set i ({ pc := Pc.test, f := fr.f } :: rest) }
  | Pc.test =>
    if c.w.d.count = c.w.d.reps then
      { c with threads := c.threads.set i ({ pc := Pc.call, f := fr.f } :: rest) }
    else
      { c with threads := c.threads.set i ({ pc := Pc.incr, f := fr.f } :: rest) }
  | Pc.call =>
    { c with
      w := { c.w with log := c.w.log ++ [Event.sync fr.f] }
      threads := c.threads.set i
        (match body fr.f with
          | some g => { pc := Pc.lock, f := g } :: { pc := Pc.inCall, f := fr.f } :: rest
          | none => { pc := Pc.reset, f := fr.f } :: rest) }
  | Pc.inCall =>
    { c with threads := c.threads.set i ({ pc := Pc.reset, f := fr.f } :: rest) }
  | Pc.reset =>
    { c with
      w := { c.w with d := { c.w.d with count := 0 } }
      threads := c.threads.set i ({ pc := Pc.unlock, f := fr.f } :: rest) }
  | Pc.incr =>
    { c with
      w := { c.w with d := { c.w.d with count := (c.w.d.count + 1) % uint64Mod } }
      threads := c.threads.set i ({ pc := Pc.arm, f := fr.f } :: rest) }
  | Pc.arm =>
    let r := AfterFunc c.w.timers c.w.d.after fr.f
    { c with
      w := { c.w with d := { c.w.d with timer := some r.1 }, timers := r.2 }
      threads := c.threads.set i ({ pc := Pc.unlock, f := fr.f } :: rest) }
  | Pc.unlock =>
    { c with locked := false, threads := c.threads.set i rest }

/-- The goroutine the runtime starts when a timer with function `f` fires: it runs `f`, which
either calls the debounced function (a new activation of `add`) or finishes at once. -/
def spawned {α : Type} (body : α → Option α) (f : α) : List (List (Frame α)) :=
  match body f with
  | some g => [[{ pc := Pc.lock, f := g }]]
  | none => []

/-- Timer `tid` expires: as in `expire`, and the function runs in a goroutine of its own. The
mutex plays no part. -/
def cexpire {α : Type} (body : α → Option α) (c : Config α) (tid : Nat) : Config α :=
  match c.w.timers[tid]? with
  | some t =>
    if t.status = TimerStatus.armed then
      { c with w := expire c.w tid, threads := c.threads ++ spawned body t.f }
    else c
  | none => c

/-- One transition of the concurrent system. -/
def cstep {α : Type} (body : α → Option α) (c : Config α) : Choice → Config α
  | Choice.thread i =>
    match c.threads[i]? with
    | some (fr :: rest) => frameStep body c i fr rest
    | _ => c
  | Choice.expire tid => cexpire body c tid

/-- Effect of a schedule, left to right. -/
def crun {α : Type} (body : α → Option α) (c : Config α) (sched : List Choice) : Config α :=
  sched.foldl (cstep body) c

/-- Functions that never call the debounced function. -/
def noReentry {α : Type} : α → Option α := fun _ => none

/-- Initial configuration for the concurrent calls `add(f)`, `f` in `fs`, on the debouncer in
state `w`: the mutex is free and each call is a goroutine about to lock it. -/
def start {α : Type} (w : World α) (fs : List α) : Config α :=
  { w := w, locked := false, threads := fs.map (fun f => [{ pc := Pc.lock, f := f }]) }

/-- The sequential transition completed by a choice, if any: the statement that finishes the
effect of `add(f)` on the debouncer (`d.count = 0` or the assignment of the new timer), or a
timer that really fires. -/
def commit {α : Type} (c : Config α) : Choice → List (Step α)
  | Choice.thread i =>
    match c.threads[i]? with
    | some (fr :: _) =>
      if fr.pc = Pc.reset ∨ fr.pc = Pc.arm then [Step.submit fr.f] else []
    | _ => []
  | Choice.expire tid =>
    match c.w.timers[tid]? with
    | some t => if t.status = TimerStatus.armed then [Step.expire tid] else []
    | none => []

/-- The sequential trace of a schedule: its completed calls and timer firings, in order. -/
def linearize {α : Type} (body : α → Option α) : Config α → List Choice → List (Step α)
  | _, [] => []
  | c, ch :: sched => commit c ch ++ linearize body (cstep body c ch) sched

/-- The argument of the call that acquires the mutex by a choice, if any. -/
def acquire {α : Type} (c : Config α) : Choice → List α
  | Choice.thread i =>
    match c.threads[i]? with
    | some (fr :: _) => if fr.pc = Pc.lock ∧ c.locked = false then [fr.f] else []
    | _ => []
  | Choice.expire _ => []

/-- The calls of a schedule in the order in which they acquired the mutex. -/
def lockOrder {α : Type} (body : α → Option α) : Config α → List Choice → List α
  | _, [] => []
  | c, ch :: sched => acquire c ch ++ lockOrder body (cstep body c ch) sched

/-- The arguments of the calls of a sequential trace, in order. -/
def submitted {α : Type} : List (Step α) → List α
  | [] => []
  | Step.submit f :: tr => f :: submitted tr
  | Step.submitPanic f :: tr => f :: submitted tr
  | Step.expire _ :: tr => submitted tr

/-- Every goroutine has finished. -/
def allDone {α : Type} (c : Config α) : Prop := ∀ st ∈ c.threads, st = []

/-- The top frame of a goroutine that is between `Lock` and the return of `add`. -/
def crit {α : Type} : List (Frame α) → Option (Frame α)
  | [] => none
  | fr :: _ => if fr.pc = Pc.lock then none else some fr

/-- The argument of a goroutine that is about to lock the mutex. -/
def waitingFor {α : Type} : List (Frame α) → Option α
  | [] => none
  | fr :: _ => if fr.pc = Pc.lock then some fr.f else none

/-- Top frames of the goroutines inside the critical section. -/
def critical {α : Type} (c : Config α) : List (Frame α) := c.threads.filterMap crit

/-- Arguments of the calls that have not yet acquired the mutex. -/
def waiting {α : Type} (c : Config α) : List α := c.threads.filterMap waitingFor

/-- Relation between the debouncer state `cw` seen while the goroutine with top frame `fr`
holds the mutex and the state `base` of the sequential run of the calls completed so far. -/
def holds {α : Type} (fr : Frame α) (base cw : World α) : Prop :=
  match fr.pc with
  | Pc.lock => False
  | Pc.stop => cw = base
  | Pc.test => cw = stopTimer base
  | Pc.call => cw = stopTimer base ∧ base.d.count = base.d.reps
  | Pc.inCall => False
  | Pc.reset =>
    cw = { stopTimer base with log := base.log ++ [Event.sync fr.f] } ∧
      base.d.count = base.d.reps
  | Pc.incr => cw = stopTimer base ∧ base.d.count ≠ base.d.reps
  | Pc.arm =>
    cw = { stopTimer base with
            d := { base.d with count := (base.d.count + 1) % uint64Mod } } ∧
      base.d.count ≠ base.d.reps
  | Pc.unlock => cw = base

/-- A function that calls the debounced function itself: `A` submits `B`; `B` and `C` do not
touch the debouncer. -/
def reenter : Job → Option Job
  | Job.A => some Job.B
  | _ => none

/-- Invariant of the concurrent runs of the calls `fs` started in state `w`, for functions
that do not call the debounced function: `tr` is the sequential trace completed so far and
`acq` the order in which the mutex has been acquired. -/
structure Ser {α : Type} (w : World α) (fs : List α) (c : Config α) (tr : List (Step α))
    (acq : List α) : Prop where
  short : ∀ st ∈ c.threads, st.length ≤ 1
  perm : List.Perm (acq ++ waiting c) fs
  state :
    (c.locked = false ∧ critical c = [] ∧ c.w = run w tr ∧ submitted tr = acq) ∨
    (c.locked = true ∧ ∃ fr, critical c = [fr] ∧ holds fr (run w tr) c.w ∧
      acq = submitted tr ++ (if fr.pc = Pc.unlock then [] else [fr.f]))

/-- Number of statements an activation of `add` still has to execute from a program point. -/
def remaining : Pc → Nat
  | Pc.lock => 6
  | Pc.stop => 5
  | Pc.test => 4
  | Pc.call => 3
  | Pc.inCall => 3
  | Pc.incr => 3
  | Pc.reset => 2
  | Pc.arm => 2
  | Pc.unlock => 1

/-- Statements the top activation of a goroutine still has to execute. -/
def stackWork {α : Type} : List (Frame α) → Nat
  | [] => 0
  | fr :: _ => remaining fr.pc

/-- Statements still to be executed by all goroutines together. -/
def work {α : Type} (c : Config α) : Nat := (c.threads.map stackWork).sum

/-- A schedule for two concurrent calls: the second goroutine locks first, the first one then
blocks on `Lock`; timer 0 is tried twice, once inside the critical section (nothing is armed
then) and once after the timer has been armed; at the end the first goroutine runs. -/
def interleaved : List Choice :=
  [Choice.thread 1, Choice.thread 0, Choice.thread 1, Choice.thread 1, Choice.expire 0,
    Choice.thread 1, Choice.thread 1, Choice.expire 0, Choice.thread 1, Choice.thread 0,
    Choice.thread 0, Choice.thread 0, Choice.thread 0, Choice.thread 0, Choice.thread 0]

/-- Number of calls since the last release of either kind (an inline call by `add` or a timer
firing), following the wording of the data model: the counter `acc` is advanced along the
trace, a call that logs nothing adds one, and any transition that logs a call of a submitted
function resets it to zero. -/
def sinceRelease {α : Type} : World α → List (Step α) → Nat → Nat
  | _, [], acc => acc
  | w, Step.submit f :: tr, acc =>
    sinceRelease (add w f) tr (if (add w f).log.length = w.log.length then acc + 1 else 0)
  | w, Step.submitPanic f :: tr, acc =>
    sinceRelease (addPanic w f) tr
      (if (addPanic w f).log.length = w.log.length then acc + 1 else 0)
  | w, Step.expire tid :: tr, acc =>
    sinceRelease (expire w tid) tr (if (expire w tid).log.length = w.log.length then acc else 0)

/-- Number of calls since the last forced release (an inline call by `add`): as `sinceRelease`,
except that a timer firing leaves the counter alone. -/
def sinceForced {α : Type} : World α → List (Step α) → Nat → Nat
  | _, [], acc => acc
  | w, Step.submit f :: tr, acc =>
    sinceForced (add w f) tr (if (add w f).log.length = w.log.length then acc + 1 else 0)
  | w, Step.submitPanic f :: tr, acc =>
    sinceForced (addPanic w f) tr
      (if (addPanic w f).log.length = w.log.length then acc + 1 else 0)
  | w, Step.expire tid :: tr, acc => sinceForced (expire w tid) tr acc

/-- The choice of `add` (lines 46-52) over unbounded natural numbers: `d.count++` without a
modulus. -/
def releaseNat {α : Type} (w : World α) (f : α) : World α :=
  if w.d.count = w.d.reps then
    { w with log := w.log ++ [Event.sync f], d := { w.d with count := 0 } }
  else
    let r := AfterFunc w.timers w.d.after f
    { w with
      d := { w.d with count := w.d.count + 1, timer := some r.1 }
      timers := r.2 }

/-- The method `add` over unbounded natural numbers. -/
def addNat {α : Type} (w : World α) (f : α) : World α :=
  releaseNat (stopTimer w) f

/-- The choice of `add` when `f()` panics, over unbounded natural numbers. -/
def releasePanicNat {α : Type} (w : World α) (f : α) : World α :=
  if w.d.count = w.d.reps then
    { w with log := w.log ++ [Event.sync f] }
  else
    let r := AfterFunc w.timers w.d.after f
    { w with
      d := { w.d with count := w.d.count + 1, timer := some r.1 }
      timers := r.2 }

/-- The method `add` when `f()` panics, over unbounded natural numbers. -/
def addPanicNat {α : Type} (w : World α) (f : α) : World α :=
  releasePanicNat (stopTimer w) f

/-- One transition of the machine over unbounded natural numbers. -/
def stepNat {α : Type} (w : World α) : Step α → World α
  | Step.submit f => addNat w f
  | Step.submitPanic f => addPanicNat w f
  | Step.expire tid => expire w tid

/-- Effect of a trace on the machine over unbounded natural numbers. -/
def runNat {α : Type} (w : World α) (tr : List (Step α)) : World α :=
  tr.foldl stepNat w

/-- Three calls on `New(50ms, 3)`, each followed by the expiry of its own timer. -/
def spaced : List (Step Job) :=
  [Step.submit Job.A, Step.expire 0, Step.submit Job.B, Step.expire 1, Step.submit Job.C,
    Step.expire 2]

/-- The configuration reached on `New(50ms, 0)` when `add(A)` runs its first four statements
and `A` calls the debounced function with `B`: the mutex is locked by the outer call, which
waits inside `A()`, and the inner call waits at `Lock`. -/
def stuck : Config Job :=
  { w := { d := { after := 50, timer := none, reps := 0, count := 0 }
           timers := []
           log := [Event.sync Job.A] }
    locked := true
    threads := [[{ pc := Pc.lock, f := Job.B }, { pc := Pc.inCall, f := Job.A }]] }

/-- State reached from `New(50ms, 1)` by `add(A)`: the counter has reached `reps` and the
timer of `A` is pending. -/
def full1 : World Job :=
  run (New 50 1) [Step.submit Job.A]

/-- State reached from `New(50ms, 1)` by `add(A)` followed by `add(B)` where `B` panics when it
is called and the caller recovers. -/
def panicked1 : World Job :=
  run (New 50 1) [Step.submit Job.A, Step.submitPanic Job.B]

/-! ## Heap lemmas -/

theorem updateAt_length {α : Type} (g : Timer α → Timer α) (i : Nat) (ts : List (Timer α)) :
    (updateAt g i ts).length = ts.length := by
  induction ts generalizing i with
  | nil => cases i <;> rfl
  | cons t ts ih =>
    cases i with
    | zero => rfl
    | succ i => simp [updateAt, ih]

theorem updateAt_getElem? {α : Type} (g : Timer α → Timer α) (i j : Nat) (ts : List (Timer α)) :
    (updateAt g i ts)[j]? = if j = i then (ts[j]?).map g else ts[j]? := by
  induction ts generalizing i j with
  | nil => cases i <;> simp [updateAt]
  | cons t ts ih =>
    cases i with
    | zero =>
      cases j with
      | zero => simp [updateAt]
      | succ j => simp [updateAt]
    | succ i =>
      cases j with
      | zero => simp [updateAt]
      | succ j => simp [updateAt, ih]

theorem mem_armedIds {α : Type} (ts : List (Timer α)) (k i : Nat) :
    i ∈ armedIds k ts ↔ k ≤ i ∧ ∃ t, ts[i - k]? = some t ∧ t.status = TimerStatus.armed := by
  induction ts generalizing k with
  | nil => simp [armedIds]
  | cons t ts ih =>
    have hrec : i ∈ armedIds (k + 1) ts ↔
        k + 1 ≤ i ∧ ∃ u, (t :: ts)[i - k]? = some u ∧ u.status = TimerStatus.armed := by
      rw [ih]
      constructor
      · rintro ⟨hk, u, hu, ha⟩
        refine ⟨hk, u, ?_, ha⟩
        have : i - k = (i - (k + 1)) + 1 := by omega
        rw [this]
        simpa using hu
      · rintro ⟨hk, u, hu, ha⟩
        refine ⟨hk, u, ?_, ha⟩
        have : i - k = (i - (k + 1)) + 1 := by omega
        rw [this] at hu
        simpa using hu
    by_cases hs : t.status = TimerStatus.armed
    · simp only [armedIds, hs, if_true, List.mem_cons, hrec]
      constructor
      · rintro (rfl | ⟨hk, h⟩)
        · exact ⟨le_refl _, t, by simp, hs⟩
        · exact ⟨by omega, h⟩
      · rintro ⟨hk, h⟩
        by_cases hik : i = k
        · exact Or.inl hik
        · exact Or.inr ⟨by omega, h⟩
    · simp only [armedIds, hs, if_false, hrec]
      constructor
      · rintro ⟨hk, h⟩
        exact ⟨by omega, h⟩
      · rintro ⟨hk, u, hu, ha⟩
        by_cases hik : i = k
        · subst hik
          simp at hu
          subst hu
          exact absurd ha hs
        · exact ⟨by omega, u, hu, ha⟩

theorem armedIds_append {α : Type} (ts : List (Timer α)) (t : Timer α) (k : Nat) :
    armedIds k (ts ++ [t]) =
      armedIds k ts ++ (if t.status = TimerStatus.armed then [k + ts.length] else []) := by
  induction ts generalizing k with
  | nil => simp [armedIds]
  | cons u ts ih =>
    by_cases hs : u.status = TimerStatus.armed
    · simp [armedIds, hs, ih, Nat.add_assoc, Nat.add_comm 1]
    · simp [armedIds, hs, ih, Nat.add_assoc, Nat.add_comm 1]

theorem armedIds_eq_nil {α : Type} (ts : List (Timer α)) (k : Nat)
    (h : ∀ (i : Nat) (t : Timer α), ts[i]? = some t → t.status ≠ TimerStatus.armed) :
    armedIds k ts = [] := by
  apply List.eq_nil_iff_forall_not_mem.mpr
  intro i hi
  obtain ⟨_, t, ht, ha⟩ := (mem_armedIds ts k i).mp hi
  exact h _ t ht ha

theorem armedIds_length_le_one {α : Type} (ts : List (Timer α)) (k s : Nat)
    (h : ∀ (i : Nat) (t : Timer α), ts[i]? = some t → t.status = TimerStatus.armed → i = s) :
    (armedIds k ts).length ≤ 1 := by
  induction ts generalizing k s with
  | nil => simp [armedIds]
  | cons u ts ih =>
    by_cases hs : u.status = TimerStatus.armed
    · have h0 : 0 = s := h 0 u (by simp) hs
      have hnil : armedIds (k + 1) ts = [] := by
        apply armedIds_eq_nil
        intro i t ht ha
        have := h (i + 1) t (by simpa using ht) ha
        omega
      simp [armedIds, hs, hnil]
    · simp only [armedIds, hs, if_false]
      apply ih (k + 1) (s - 1)
      intro i t ht ha
      have := h (i + 1) t (by simpa using ht) ha
      omega

theorem firings_append {α : Type} (tid : Nat) (l₁ l₂ : List (Event α)) :
    firings tid (l₁ ++ l₂) = firings tid l₁ ++ firings tid l₂ := by
  induction l₁ with
  | nil => rfl
  | cons e es ih =>
    cases e with
    | sync f => simpa [firings] using ih
    | fired i f =>
      by_cases h : i = tid
      · simp [firings, h, ih]
      · simp [firings, h, ih]

theorem syncCalls_append {α : Type} (l₁ l₂ : List (Event α)) :
    syncCalls (l₁ ++ l₂) = syncCalls l₁ ++ syncCalls l₂ := by
  induction l₁ with
  | nil => rfl
  | cons e es ih =>
    cases e with
    | sync f => simp [syncCalls, ih]
    | fired i f => simpa [syncCalls] using ih

theorem run_append {α : Type} (w : World α) (tr₁ tr₂ : List (Step α)) :
    run w (tr₁ ++ tr₂) = run (run w tr₁) tr₂ := by
  simp [run, List.foldl_append]

theorem run_snoc {α : Type} (w : World α) (tr : List (Step α)) (s : Step α) :
    run w (tr ++ [s]) = step (run w tr) s := by
  simp [run, List.foldl_append]

theorem run_cons {α : Type} (w : World α) (s : Step α) (tr : List (Step α)) :
    run w (s :: tr) = run (step w s) tr := rfl

theorem submits_append {α : Type} (tr₁ tr₂ : List (Step α)) :
    submits (tr₁ ++ tr₂) = submits tr₁ + submits tr₂ := by
  induction tr₁ with
  | nil => simp [submits]
  | cons s tr ih =>
    cases s with
    | submit f => simp [submits, ih]; omega
    | submitPanic f => simp [submits, ih]; omega
    | expire i => simp [submits, ih]

theorem calm_append {α : Type} (tr₁ tr₂ : List (Step α)) :
    calm (tr₁ ++ tr₂) = (calm tr₁ && calm tr₂) := by
  induction tr₁ with
  | nil => simp [calm]
  | cons s tr ih =>
    cases s with
    | submit f => simpa [calm] using ih
    | submitPanic f => simp [calm]
    | expire i => simpa [calm] using ih

/-! ## The two phases of `add` -/

theorem Timer.stop_status_ne {α : Type} (t : Timer α) : t.stop.status ≠ TimerStatus.armed := by
  unfold Timer.stop
  split
  · simp
  · assumption

theorem Timer.stop_of_not_armed {α : Type} (t : Timer α) (h : t.status ≠ TimerStatus.armed) :
    t.stop = t := by
  unfold Timer.stop
  split
  · contradiction
  · rfl

theorem Timer.stop_f {α : Type} (t : Timer α) : t.stop.f = t.f := by
  unfold Timer.stop
  split <;> rfl

theorem Timer.stop_delay {α : Type} (t : Timer α) : t.stop.delay = t.delay := by
  unfold Timer.stop
  split <;> rfl

theorem Timer.stop_fired {α : Type} (t : Timer α) :
    t.stop.status = TimerStatus.fired ↔ t.status = TimerStatus.fired := by
  unfold Timer.stop
  split
  · rename_i h
    simp [h]
  · rfl

theorem Timer.fire_of_armed {α : Type} (t : Timer α) (h : t.status = TimerStatus.armed) :
    t.fire = { t with status := TimerStatus.fired } := by
  unfold Timer.fire
  rw [h]

theorem stopTimer_d {α : Type} (w : World α) : (stopTimer w).d = w.d := by
  unfold stopTimer
  split <;> rfl

theorem stopTimer_log {α : Type} (w : World α) : (stopTimer w).log = w.log := by
  unfold stopTimer
  split <;> rfl

theorem stopTimer_length {α : Type} (w : World α) :
    (stopTimer w).timers.length = w.timers.length := by
  unfold stopTimer
  split
  · rfl
  · simp [updateAt_length]

theorem stopTimer_getElem? {α : Type} (w : World α) (j : Nat) :
    (stopTimer w).timers[j]? =
      if w.d.timer = some j then (w.timers[j]?).map Timer.stop else w.timers[j]? := by
  unfold stopTimer
  split
  · rename_i h
    simp [h]
  · rename_i tid h
    simp only [updateAt_getElem?, h, Option.some.injEq]
    by_cases hj : j = tid
    · simp [hj]
    · have : ¬ tid = j := fun e => hj e.symm
      simp [hj, this]

theorem add_reps {α : Type} (w : World α) (f : α) (h : w.d.count = w.d.reps) :
    add w f =
      { d := { w.d with count := 0 }
        timers := (stopTimer w).timers
        log := w.log ++ [Event.sync f] } := by
  simp [add, release, stopTimer_d, stopTimer_log, h]

theorem add_delay {α : Type} (w : World α) (f : α) (h : w.d.count ≠ w.d.reps) :
    add w f =
      { d := { w.d with count := (w.d.count + 1) % uint64Mod, timer := some w.timers.length }
        timers := (stopTimer w).timers ++
          [{ delay := w.d.after, f := f, status := TimerStatus.armed }]
        log := w.log } := by
  simp [add, release, AfterFunc, stopTimer_d, stopTimer_log, stopTimer_length, h]

theorem addPanic_reps {α : Type} (w : World α) (f : α) (h : w.d.count = w.d.reps) :
    addPanic w f =
      { d := w.d
        timers := (stopTimer w).timers
        log := w.log ++ [Event.sync f] } := by
  simp [addPanic, releasePanic, stopTimer_d, stopTimer_log, h]

theorem addPanic_delay {α : Type} (w : World α) (f : α) (h : w.d.count ≠ w.d.reps) :
    addPanic w f = add w f := by
  simp [addPanic, releasePanic, add, release, stopTimer_d, h]

theorem addPanic_timers {α : Type} (w : World α) (f : α) :
    (addPanic w f).timers = (add w f).timers := by
  by_cases h : w.d.count = w.d.reps
  · rw [addPanic_reps w f h, add_reps w f h]
  · rw [addPanic_delay w f h]

theorem addPanic_log {α : Type} (w : World α) (f : α) :
    (addPanic w f).log = (add w f).log := by
  by_cases h : w.d.count = w.d.reps
  · rw [addPanic_reps w f h, add_reps w f h]
  · rw [addPanic_delay w f h]

theorem addPanic_timer {α : Type} (w : World α) (f : α) :
    (addPanic w f).d.timer = (add w f).d.timer := by
  by_cases h : w.d.count = w.d.reps
  · rw [addPanic_reps w f h, add_reps w f h]
  · rw [addPanic_delay w f h]

theorem addPanic_after_eq {α : Type} (w : World α) (f : α) :
    (addPanic w f).d.after = w.d.after := by
  by_cases h : w.d.count = w.d.reps
  · rw [addPanic_reps w f h]
  · rw [addPanic_delay w f h, add_delay w f h]

theorem addPanic_reps_eq {α : Type} (w : World α) (f : α) :
    (addPanic w f).d.reps = w.d.reps := by
  by_cases h : w.d.count = w.d.reps
  · rw [addPanic_reps w f h]
  · rw [addPanic_delay w f h, add_delay w f h]

theorem addPanic_count {α : Type} (w : World α) (f : α) :
    (addPanic w f).d.count = if w.d.count = w.d.reps then w.d.count else (add w f).d.count := by
  by_cases h : w.d.count = w.d.reps
  · rw [addPanic_reps w f h, if_pos h]
  · rw [addPanic_delay w f h, if_neg h]

/-! ## The invariant of reachable states -/

theorem Inv_New {α : Type} (after : Int) (reps : Nat) (h : reps < uint64Mod) :
    Inv (New after reps : World α) := by
  constructor <;> simp [New, h, firings, expectedFirings]

theorem stopTimer_not_armed {α : Type} (w : World α) (hw : Inv w) (j : Nat) (t : Timer α)
    (ht : (stopTimer w).timers[j]? = some t) : t.status ≠ TimerStatus.armed := by
  rw [stopTimer_getElem?] at ht
  by_cases hj : w.d.timer = some j
  · rw [if_pos hj] at ht
    cases hu : w.timers[j]? with
    | none => simp [hu] at ht
    | some u =>
      simp [hu] at ht
      rw [← ht]
      exact u.stop_status_ne
  · rw [if_neg hj] at ht
    intro ha
    exact hj (hw.armed_stored j t ht ha)

theorem stopTimer_expected {α : Type} (w : World α) (j : Nat) :
    expectedFirings (stopTimer w).timers[j]? = expectedFirings w.timers[j]? := by
  rw [stopTimer_getElem?]
  by_cases hj : w.d.timer = some j
  · rw [if_pos hj]
    cases hu : w.timers[j]? with
    | none => rfl
    | some u =>
      simp only [Option.map_some', expectedFirings, Timer.stop_f]
      by_cases hf : u.status = TimerStatus.fired
      · rw [if_pos hf, if_pos ((Timer.stop_fired u).mpr hf)]
      · rw [if_neg hf, if_neg (fun h => hf ((Timer.stop_fired u).mp h))]
  · rw [if_neg hj]

theorem stopTimer_delay {α : Type} (w : World α) (hw : Inv w) (j : Nat) (t : Timer α)
    (ht : (stopTimer w).timers[j]? = some t) : t.delay = w.d.after := by
  rw [stopTimer_getElem?] at ht
  by_cases hj : w.d.timer = some j
  · rw [if_pos hj] at ht
    cases hu : w.timers[j]? with
    | none => simp [hu] at ht
    | some u =>
      simp [hu] at ht
      rw [← ht, Timer.stop_delay]
      exact hw.delay_eq j u hu
  · rw [if_neg hj] at ht
    exact hw.delay_eq j t ht

theorem getElem?_snoc {α : Type} (ts : List α) (t : α) (i : Nat) :
    (ts ++ [t])[i]? = if i < ts.length then ts[i]? else if i = ts.length then some t else none := by
  by_cases h₁ : i < ts.length
  · rw [if_pos h₁, List.getElem?_append_left h₁]
  · rw [if_neg h₁]
    by_cases h₂ : i = ts.length
    · rw [if_pos h₂, h₂, List.getElem?_concat_length]
    · rw [if_neg h₂]
      apply List.getElem?_eq_none
      simp
      omega

theorem Inv_add {α : Type} (w : World α) (f : α) (hw : Inv w) : Inv (add w f) := by
  by_cases h : w.d.count = w.d.reps
  · rw [add_reps w f h]
    refine ⟨hw.reps_lt, Nat.zero_le _, ?_, ?_, ?_, ?_⟩
    · intro i hi
      simpa [stopTimer_length] using hw.stored_lt i hi
    · intro i t ht ha
      exact absurd ha (stopTimer_not_armed w hw i t ht)
    · intro i t ht
      exact stopTimer_delay w hw i t ht
    · intro i
      simp only [firings_append, firings, List.append_nil]
      rw [stopTimer_expected]
      exact hw.firings_eq i
  · rw [add_delay w f h]
    have hlt : w.d.count + 1 ≤ w.d.reps := by
      have := hw.count_le
      omega
    have hmod : (w.d.count + 1) % uint64Mod = w.d.count + 1 :=
      Nat.mod_eq_of_lt (lt_of_le_of_lt hlt hw.reps_lt)
    have hlen := stopTimer_length w
    refine ⟨hw.reps_lt, ?_, ?_, ?_, ?_, ?_⟩
    · simpa [hmod] using hlt
    · intro i hi
      simp at hi
      simp [stopTimer_length]
      omega
    · intro i t ht ha
      simp only [getElem?_snoc, hlen] at ht
      by_cases h₁ : i < w.timers.length
      · rw [if_pos h₁] at ht
        exact absurd ha (stopTimer_not_armed w hw i t ht)
      · rw [if_neg h₁] at ht
        by_cases h₂ : i = w.timers.length
        · simp [h₂]
        · simp [h₂] at ht
    · intro i t ht
      simp only [getElem?_snoc, hlen] at ht
      by_cases h₁ : i < w.timers.length
      · rw [if_pos h₁] at ht
        exact stopTimer_delay w hw i t ht
      · rw [if_neg h₁] at ht
        by_cases h₂ : i = w.timers.length
        · simp [h₂] at ht
          rw [← ht]
        · simp [h₂] at ht
    · intro i
      simp only [getElem?_snoc, hlen]
      by_cases h₁ : i < w.timers.length
      · rw [if_pos h₁, stopTimer_expected]
        exact hw.firings_eq i
      · rw [if_neg h₁, hw.firings_eq i]
        have hnone : w.timers[i]? = none := List.getElem?_eq_none (by omega)
        rw [hnone]
        by_cases h₂ : i = w.timers.length
        · simp [h₂, expectedFirings]
        · simp [h₂, expectedFirings]

theorem expire_of_armed {α : Type} (w : World α) (tid : Nat) (t : Timer α)
    (ht : w.timers[tid]? = some t) (ha : t.status = TimerStatus.armed) :
    expire w tid =
      { w with
        timers := updateAt Timer.fire tid w.timers
        log := w.log ++ [Event.fired tid t.f] } := by
  simp [expire, ht, ha]

theorem expire_of_not_armed {α : Type} (w : World α) (tid : Nat)
    (h : ∀ t : Timer α, w.timers[tid]? = some t → t.status ≠ TimerStatus.armed) :
    expire w tid = w := by
  unfold expire
  split
  · rename_i t ht
    rw [if_neg (h t ht)]
  · rfl

theorem Inv_expire {α : Type} (w : World α) (tid : Nat) (hw : Inv w) : Inv (expire w tid) := by
  by_cases h : ∀ t : Timer α, w.timers[tid]? = some t → t.status ≠ TimerStatus.armed
  · rw [expire_of_not_armed w tid h]
    exact hw
  · push_neg at h
    obtain ⟨t, ht, ha⟩ := h
    rw [expire_of_armed w tid t ht ha]
    refine ⟨hw.reps_lt, hw.count_le, ?_, ?_, ?_, ?_⟩
    · intro i hi
      simpa [updateAt_length] using hw.stored_lt i hi
    · intro i u hu hua
      simp only [updateAt_getElem?] at hu
      by_cases hi : i = tid
      · rw [if_pos hi, hi, ht] at hu
        simp [Timer.fire_of_armed t ha] at hu
        rw [← hu] at hua
        simp at hua
      · rw [if_neg hi] at hu
        exact hw.armed_stored i u hu hua
    · intro i u hu
      simp only [updateAt_getElem?] at hu
      by_cases hi : i = tid
      · rw [if_pos hi, hi, ht] at hu
        simp [Timer.fire_of_armed t ha] at hu
        rw [← hu]
        exact hw.delay_eq tid t ht
      · rw [if_neg hi] at hu
        exact hw.delay_eq i u hu
    · intro i
      simp only [updateAt_getElem?, firings_append, firings]
      by_cases hi : i = tid
      · rw [if_pos hi, hi, ht, hw.firings_eq tid, ht]
        simp [Timer.fire_of_armed t ha, expectedFirings, ha]
      · rw [if_neg hi, hw.firings_eq i]
        have : ¬ tid = i := fun e => hi e.symm
        simp [this]

theorem Inv_addPanic {α : Type} (w : World α) (f : α) (hw : Inv w) : Inv (addPanic w f) := by
  by_cases h : w.d.count = w.d.reps
  · have ha := Inv_add w f hw
    rw [add_reps w f h] at ha
    rw [addPanic_reps w f h]
    exact ⟨hw.reps_lt, hw.count_le, ha.stored_lt, ha.armed_stored, ha.delay_eq, ha.firings_eq⟩
  · rw [addPanic_delay w f h]
    exact Inv_add w f hw

theorem Inv_step {α : Type} (w : World α) (s : Step α) (hw : Inv w) : Inv (step w s) := by
  cases s with
  | submit f => exact Inv_add w f hw
  | submitPanic f => exact Inv_addPanic w f hw
  | expire tid => exact Inv_expire w tid hw

theorem Inv_run {α : Type} (tr : List (Step α)) (w : World α) (hw : Inv w) : Inv (run w tr) := by
  induction tr generalizing w with
  | nil => exact hw
  | cons s tr ih => exact ih (step w s) (Inv_step w s hw)

theorem Inv_of_reachable {α : Type} (w : World α) (hw : Reachable w) : Inv w := by
  obtain ⟨after, reps, tr, hr, rfl⟩ := hw
  exact Inv_run tr _ (Inv_New after reps hr)

theorem Reachable_step {α : Type} (w : World α) (s : Step α) (hw : Reachable w) :
    Reachable (step w s) := by
  obtain ⟨after, reps, tr, hr, rfl⟩ := hw
  exact ⟨after, reps, tr ++ [s], hr, run_snoc _ tr s⟩

theorem Reachable_run {α : Type} (w : World α) (tr : List (Step α)) (hw : Reachable w) :
    Reachable (run w tr) := by
  obtain ⟨after, reps, tr₀, hr, rfl⟩ := hw
  exact ⟨after, reps, tr₀ ++ tr, hr, run_append _ tr₀ tr⟩

theorem mem_pending {α : Type} (w : World α) (tid : Nat) :
    tid ∈ pending w ↔ ∃ t, w.timers[tid]? = some t ∧ t.status = TimerStatus.armed := by
  simp [pending, mem_armedIds]

theorem Timer.stop_of_armed {α : Type} (t : Timer α) (h : t.status = TimerStatus.armed) :
    t.stop = { t with status := TimerStatus.stopped } := by
  unfold Timer.stop
  rw [h]

theorem pending_stopTimer {α : Type} (w : World α) (hw : Inv w) : pending (stopTimer w) = [] :=
  armedIds_eq_nil _ 0 (fun i t ht => stopTimer_not_armed w hw i t ht)

theorem stopTimer_cancels {α : Type} (w : World α) (hw : Inv w) (tid : Nat)
    (h : tid ∈ pending w) :
    ∃ t, (stopTimer w).timers[tid]? = some t ∧ t.status = TimerStatus.stopped := by
  obtain ⟨t, ht, ha⟩ := (mem_pending w tid).mp h
  refine ⟨{ t with status := TimerStatus.stopped }, ?_, rfl⟩
  rw [stopTimer_getElem?, if_pos (hw.armed_stored tid t ht ha), ht]
  simp [Timer.stop_of_armed t ha]

theorem pending_length_le_one {α : Type} (w : World α) (hw : Inv w) : (pending w).length ≤ 1 := by
  cases hs : w.d.timer with
  | none =>
    have : pending w = [] := by
      apply armedIds_eq_nil
      intro i t ht ha
      have := hw.armed_stored i t ht ha
      rw [hs] at this
      cases this
    simp [this]
  | some s =>
    apply armedIds_length_le_one _ 0 s
    intro i t ht ha
    have := hw.armed_stored i t ht ha
    rw [hs] at this
    exact (Option.some.inj this).symm

theorem pending_add_delay {α : Type} (w : World α) (f : α) (hw : Inv w)
    (h : w.d.count ≠ w.d.reps) : pending (add w f) = [w.timers.length] := by
  rw [add_delay w f h]
  show armedIds 0 _ = _
  rw [armedIds_append]
  have := pending_stopTimer w hw
  unfold pending at this
  simp [this, stopTimer_length w]

/-! ## The counter along a trace -/

theorem succ_mod_succ (m n : Nat) :
    (m + 1) % (n + 1) = if m % (n + 1) = n then 0 else m % (n + 1) + 1 := by
  have hlt : m % (n + 1) < n + 1 := Nat.mod_lt _ (Nat.succ_pos n)
  have hdm : (n + 1) * (m / (n + 1)) + m % (n + 1) = m := Nat.div_add_mod m (n + 1)
  by_cases h : m % (n + 1) = n
  · rw [if_pos h]
    have : m + 1 = (n + 1) * (m / (n + 1) + 1) := by
      rw [h] at hdm
      rw [Nat.mul_add, Nat.mul_one]
      omega
    rw [this, Nat.mul_mod_right]
  · rw [if_neg h]
    have : m + 1 = (n + 1) * (m / (n + 1)) + (m % (n + 1) + 1) := by omega
    conv_lhs => rw [this]
    rw [Nat.mul_add_mod]
    exact Nat.mod_eq_of_lt (by omega)

theorem expire_d {α : Type} (w : World α) (tid : Nat) : (expire w tid).d = w.d := by
  unfold expire
  split
  · split <;> rfl
  · rfl

theorem add_reps_eq {α : Type} (w : World α) (f : α) : (add w f).d.reps = w.d.reps := by
  by_cases h : w.d.count = w.d.reps
  · rw [add_reps w f h]
  · rw [add_delay w f h]

theorem add_after_eq {α : Type} (w : World α) (f : α) : (add w f).d.after = w.d.after := by
  by_cases h : w.d.count = w.d.reps
  · rw [add_reps w f h]
  · rw [add_delay w f h]

theorem add_count {α : Type} (w : World α) (f : α) :
    (add w f).d.count = if w.d.count = w.d.reps then 0 else (w.d.count + 1) % uint64Mod := by
  by_cases h : w.d.count = w.d.reps
  · rw [add_reps w f h, if_pos h]
  · rw [add_delay w f h, if_neg h]

theorem add_log {α : Type} (w : World α) (f : α) :
    (add w f).log = if w.d.count = w.d.reps then w.log ++ [Event.sync f] else w.log := by
  by_cases h : w.d.count = w.d.reps
  · rw [add_reps w f h, if_pos h]
  · rw [add_delay w f h, if_neg h]

theorem run_reps {α : Type} (tr : List (Step α)) (w : World α) :
    (run w tr).d.reps = w.d.reps := by
  induction tr generalizing w with
  | nil => rfl
  | cons s tr ih =>
    rw [run_cons, ih]
    cases s with
    | submit f => exact add_reps_eq w f
    | submitPanic f => exact addPanic_reps_eq w f
    | expire tid => simp [step, expire_d]

theorem run_after {α : Type} (tr : List (Step α)) (w : World α) :
    (run w tr).d.after = w.d.after := by
  induction tr generalizing w with
  | nil => rfl
  | cons s tr ih =>
    rw [run_cons, ih]
    cases s with
    | submit f => exact add_after_eq w f
    | submitPanic f => exact addPanic_after_eq w f
    | expire tid => simp [step, expire_d]

theorem count_run {α : Type} (after : Int) (N : Nat) (hN : N < uint64Mod)
    (tr : List (Step α)) (hcalm : calm tr = true) :
    (run (New after N : World α) tr).d.count = submits tr % (N + 1) := by
  induction tr using List.reverseRecOn with
  | nil => simp [run, New, submits]
  | append_singleton tr s ih =>
    rw [calm_append, Bool.and_eq_true] at hcalm
    have ih := ih hcalm.1
    rw [run_snoc, submits_append]
    cases s with
    | expire tid => simpa [step, expire_d, submits] using ih
    | submitPanic f => simp [calm] at hcalm
    | submit f =>
      have hr : (run (New after N : World α) tr).d.reps = N := run_reps tr _
      have hlt : submits tr % (N + 1) < N + 1 := Nat.mod_lt _ (Nat.succ_pos N)
      simp only [step, submits, Nat.zero_add, add_count, hr, ih, succ_mod_succ]
      by_cases h : submits tr % (N + 1) = N
      · simp [h]
      · rw [if_neg h, if_neg h]
        apply Nat.mod_eq_of_lt
        omega

theorem fresh_add_log {α : Type} (after : Int) (N : Nat) (hN : N < uint64Mod)
    (tr : List (Step α)) (f : α) (hcalm : calm tr = true) :
    (add (run (New after N) tr) f).log =
      if submits tr % (N + 1) = N then (run (New after N) tr).log ++ [Event.sync f]
      else (run (New after N) tr).log := by
  rw [add_log, count_run after N hN tr hcalm, run_reps]
  rfl

theorem expire_syncCalls {α : Type} (w : World α) (tid : Nat) :
    syncCalls (expire w tid).log = syncCalls w.log := by
  unfold expire
  split
  · split
    · simp [syncCalls_append, syncCalls]
    · rfl
  · rfl

theorem submits_replicate {α : Type} (k : Nat) (f : α) :
    submits (List.replicate k (Step.submit f)) = k := by
  induction k with
  | zero => rfl
  | succ k ih => simp [List.replicate_succ, submits, ih]

theorem calm_replicate {α : Type} (k : Nat) (f : α) :
    calm (List.replicate k (Step.submit f)) = true := by
  induction k with
  | zero => rfl
  | succ k ih => simpa [List.replicate_succ, calm] using ih

theorem run_zero {α : Type} (after : Int) (tr : List (Step α)) :
    (run (New after 0 : World α) tr).d = { after := after, timer := none, reps := 0, count := 0 } ∧
    (run (New after 0 : World α) tr).timers = [] := by
  induction tr using List.reverseRecOn with
  | nil => exact ⟨rfl, rfl⟩
  | append_singleton tr s ih =>
    rw [run_snoc]
    cases s with
    | expire tid => simp [step, expire, ih.2, ih.1]
    | submit f => simp [step, add, release, stopTimer, ih.1, ih.2]
    | submitPanic f => simp [step, addPanic, releasePanic, stopTimer, ih.1, ih.2]

/-! ## Timers along a trace -/

theorem add_timers {α : Type} (w : World α) (f : α) :
    (add w f).timers =
      if w.d.count = w.d.reps then (stopTimer w).timers
      else (stopTimer w).timers ++ [{ delay := w.d.after, f := f, status := TimerStatus.armed }] := by
  by_cases h : w.d.count = w.d.reps
  · rw [add_reps w f h, if_pos h]
  · rw [add_delay w f h, if_neg h]

theorem add_getElem?_old {α : Type} (w : World α) (f : α) (i : Nat) (h : i < w.timers.length) :
    (add w f).timers[i]? = (stopTimer w).timers[i]? := by
  rw [add_timers]
  split
  · rfl
  · exact List.getElem?_append_left (by rw [stopTimer_length]; exact h)

theorem add_getElem?_of_not_armed {α : Type} (w : World α) (f : α) (i : Nat) (t : Timer α)
    (ht : w.timers[i]? = some t) (hna : t.status ≠ TimerStatus.armed) :
    (add w f).timers[i]? = some t := by
  rw [add_getElem?_old w f i (List.getElem?_eq_some.mp ht).1, stopTimer_getElem?]
  split
  · rw [ht]
    simp [Timer.stop_of_not_armed t hna]
  · exact ht

theorem add_stops_stored {α : Type} (w : World α) (f : α) (i : Nat) (t : Timer α)
    (hs : w.d.timer = some i) (ht : w.timers[i]? = some t) (ha : t.status = TimerStatus.armed) :
    (add w f).timers[i]? = some { t with status := TimerStatus.stopped } := by
  rw [add_getElem?_old w f i (List.getElem?_eq_some.mp ht).1, stopTimer_getElem?, if_pos hs, ht]
  simp [Timer.stop_of_armed t ha]

theorem add_delay_new {α : Type} (w : World α) (f : α) (h : w.d.count ≠ w.d.reps) :
    (add w f).d.timer = some w.timers.length ∧
    (add w f).timers.length = w.timers.length + 1 ∧
    (add w f).timers[w.timers.length]? =
      some { delay := w.d.after, f := f, status := TimerStatus.armed } := by
  rw [add_delay w f h]
  refine ⟨rfl, by simp [stopTimer_length], ?_⟩
  simp only [← stopTimer_length w]
  exact List.getElem?_concat_length _ _

theorem expire_getElem?_of_not_armed {α : Type} (w : World α) (tid i : Nat) (t : Timer α)
    (ht : w.timers[i]? = some t) (hna : t.status ≠ TimerStatus.armed) :
    (expire w tid).timers[i]? = some t := by
  unfold expire
  split
  · rename_i u hu
    split
    · rename_i hua
      simp only [updateAt_getElem?]
      split
      · rename_i hi
        rw [hi, hu] at ht
        cases ht
        exact absurd hua hna
      · exact ht
    · exact ht
  · exact ht

theorem expire_fires {α : Type} (w : World α) (i : Nat) (t : Timer α)
    (ht : w.timers[i]? = some t) (ha : t.status = TimerStatus.armed) :
    (expire w i).timers[i]? = some { t with status := TimerStatus.fired } := by
  rw [expire_of_armed w i t ht ha]
  simp [updateAt_getElem?, ht, Timer.fire_of_armed t ha]

theorem expire_getElem?_cases {α : Type} (w : World α) (tid i : Nat) (t : Timer α)
    (ht : w.timers[i]? = some t) (ha : t.status = TimerStatus.armed) :
    (expire w tid).timers[i]? = some t ∨
    (expire w tid).timers[i]? = some { t with status := TimerStatus.fired } := by
  by_cases hi : tid = i
  · rw [hi]
    exact Or.inr (expire_fires w i t ht ha)
  · left
    unfold expire
    split
    · split
      · simp only [updateAt_getElem?]
        rw [if_neg (fun e => hi e.symm)]
        exact ht
      · exact ht
    · exact ht

theorem step_getElem?_of_not_armed {α : Type} (w : World α) (s : Step α) (i : Nat) (t : Timer α)
    (ht : w.timers[i]? = some t) (hna : t.status ≠ TimerStatus.armed) :
    (step w s).timers[i]? = some t := by
  cases s with
  | submit f => exact add_getElem?_of_not_armed w f i t ht hna
  | submitPanic f =>
    show (addPanic w f).timers[i]? = some t
    rw [addPanic_timers]
    exact add_getElem?_of_not_armed w f i t ht hna
  | expire tid => exact expire_getElem?_of_not_armed w tid i t ht hna

theorem run_getElem?_of_not_armed {α : Type} (tr : List (Step α)) (w : World α) (i : Nat)
    (t : Timer α) (ht : w.timers[i]? = some t) (hna : t.status ≠ TimerStatus.armed) :
    (run w tr).timers[i]? = some t := by
  induction tr generalizing w with
  | nil => exact ht
  | cons s tr ih => exact ih (step w s) (step_getElem?_of_not_armed w s i t ht hna)

theorem step_getElem?_f {α : Type} (w : World α) (s : Step α) (i : Nat) (t : Timer α)
    (ht : w.timers[i]? = some t) : ∃ u, (step w s).timers[i]? = some u ∧ u.f = t.f := by
  by_cases ha : t.status = TimerStatus.armed
  · cases s with
    | expire tid =>
      rcases expire_getElem?_cases w tid i t ht ha with h | h
      · exact ⟨_, h, rfl⟩
      · exact ⟨_, h, rfl⟩
    | submit f =>
      refine ⟨if w.d.timer = some i then t.stop else t, ?_, ?_⟩
      · simp only [step]
        rw [add_getElem?_old w f i (List.getElem?_eq_some.mp ht).1, stopTimer_getElem?, ht]
        split <;> rfl
      · split
        · exact t.stop_f
        · rfl
    | submitPanic f =>
      refine ⟨if w.d.timer = some i then t.stop else t, ?_, ?_⟩
      · simp only [step]
        rw [addPanic_timers, add_getElem?_old w f i (List.getElem?_eq_some.mp ht).1,
          stopTimer_getElem?, ht]
        split <;> rfl
      · split
        · exact t.stop_f
        · rfl
  · exact ⟨t, step_getElem?_of_not_armed w s i t ht ha, rfl⟩

theorem run_getElem?_f {α : Type} (tr : List (Step α)) (w : World α) (i : Nat) (t : Timer α)
    (ht : w.timers[i]? = some t) : ∃ u, (run w tr).timers[i]? = some u ∧ u.f = t.f := by
  induction tr generalizing w t with
  | nil => exact ⟨t, ht, rfl⟩
  | cons s tr ih =>
    obtain ⟨u, hu, hf⟩ := step_getElem?_f w s i t ht
    obtain ⟨v, hv, hf'⟩ := ih (step w s) u hu
    exact ⟨v, hv, hf'.trans hf⟩

theorem quiet_run_getElem? {α : Type} (tr : List (Step α)) (w : World α) (i : Nat) (t : Timer α)
    (hq : quiet tr = true) (ht : w.timers[i]? = some t) (ha : t.status = TimerStatus.armed) :
    (run w tr).timers[i]? = some t ∨
    (run w tr).timers[i]? = some { t with status := TimerStatus.fired } := by
  induction tr generalizing w with
  | nil => exact Or.inl ht
  | cons s tr ih =>
    cases s with
    | submit f => simp [quiet] at hq
    | submitPanic f => simp [quiet] at hq
    | expire tid =>
      simp only [quiet] at hq
      rcases expire_getElem?_cases w tid i t ht ha with h | h
      · exact ih (expire w tid) hq h
      · right
        exact run_getElem?_of_not_armed tr _ i _ h (by simp)

theorem quiet_run_d {α : Type} (tr : List (Step α)) (w : World α) (hq : quiet tr = true) :
    (run w tr).d = w.d := by
  induction tr generalizing w with
  | nil => rfl
  | cons s tr ih =>
    cases s with
    | submit f => simp [quiet] at hq
    | submitPanic f => simp [quiet] at hq
    | expire tid =>
      simp only [quiet] at hq
      rw [run_cons, ih _ hq]
      exact expire_d w tid

theorem firings_of_entry {α : Type} (w : World α) (hw : Inv w) (i : Nat) (t : Timer α)
    (ht : w.timers[i]? = some t) :
    firings i w.log = if t.status = TimerStatus.fired then [t.f] else [] := by
  rw [hw.firings_eq i, ht]
  rfl

/-! ## A single call followed by silence -/

theorem add_New {α : Type} (D : Int) (N : Nat) (hN : 1 ≤ N) (f : α) :
    add (New D N) f = singleArmed D N f := by
  have h0 : ¬ 0 = N := by omega
  have h1 : 1 % uint64Mod = 1 := by decide
  simp [add, release, stopTimer, New, AfterFunc, singleArmed, h0, h1]

theorem expire_singleArmed {α : Type} (D : Int) (N : Nat) (f : α) (tid : Nat) :
    expire (singleArmed D N f) tid = if tid = 0 then singleFired D N f else singleArmed D N f := by
  cases tid with
  | zero => simp [expire, singleArmed, singleFired, updateAt, Timer.fire]
  | succ k => simp [expire, singleArmed]

theorem expire_singleFired {α : Type} (D : Int) (N : Nat) (f : α) (tid : Nat) :
    expire (singleFired D N f) tid = singleFired D N f := by
  cases tid with
  | zero => simp [expire, singleFired]
  | succ k => simp [expire, singleFired]

theorem quiet_run_singleFired {α : Type} (D : Int) (N : Nat) (f : α) (tr : List (Step α))
    (hq : quiet tr = true) : run (singleFired D N f) tr = singleFired D N f := by
  induction tr with
  | nil => rfl
  | cons s tr ih =>
    cases s with
    | submit g => simp [quiet] at hq
    | submitPanic g => simp [quiet] at hq
    | expire tid =>
      simp only [quiet] at hq
      rw [run_cons]
      simp only [step, expire_singleFired]
      exact ih hq

theorem quiet_run_singleArmed {α : Type} (D : Int) (N : Nat) (f : α) (tr : List (Step α))
    (hq : quiet tr = true) :
    run (singleArmed D N f) tr = singleArmed D N f ∨
    run (singleArmed D N f) tr = singleFired D N f := by
  induction tr with
  | nil => exact Or.inl rfl
  | cons s tr ih =>
    cases s with
    | submit g => simp [quiet] at hq
    | submitPanic g => simp [quiet] at hq
    | expire tid =>
      simp only [quiet] at hq
      rw [run_cons]
      simp only [step, expire_singleArmed]
      split
      · exact Or.inr (quiet_run_singleFired D N f tr hq)
      · exact ih hq

/-! ## Each timer calls its function at most once -/

theorem timer_fires_once {α : Type} (w : World α) (hw : Reachable w) (i : Nat) (t : Timer α)
    (ht : w.timers[i]? = some t) (ha : t.status = TimerStatus.armed)
    (pre post : List (Step α)) (hq : quiet pre = true) :
    firings i (run w (pre ++ Step.expire i :: post)).log = [t.f] := by
  have hfired : (run w (pre ++ [Step.expire i])).timers[i]? =
      some { t with status := TimerStatus.fired } := by
    rw [run_snoc]
    rcases quiet_run_getElem? pre w i t hq ht ha with hp | hp
    · exact expire_fires _ _ _ hp ha
    · exact expire_getElem?_of_not_armed _ _ _ _ hp (by simp)
  have hsplit : pre ++ Step.expire i :: post = (pre ++ [Step.expire i]) ++ post := by simp
  have hent := run_getElem?_of_not_armed post _ _ _ hfired (by simp)
  rw [← run_append, ← hsplit] at hent
  rw [firings_of_entry _ (Inv_of_reachable _ (Reachable_run _ _ hw)) _ _ hent]
  simp

theorem firings_length_le_one {α : Type} (w : World α) (hw : Inv w) (tid : Nat) :
    (firings tid w.log).length ≤ 1 := by
  rw [hw.firings_eq tid]
  unfold expectedFirings
  split
  · split <;> simp
  · simp

theorem timer_fires_at_most_once {α : Type} (w : World α) (hw : Reachable w) (i : Nat)
    (t : Timer α) (ht : w.timers[i]? = some t) (cont : List (Step α)) :
    firings i (run w cont).log = [] ∨ firings i (run w cont).log = [t.f] := by
  obtain ⟨u, hu, hf⟩ := run_getElem?_f cont w i t ht
  rw [firings_of_entry _ (Inv_of_reachable _ (Reachable_run _ cont hw)) _ _ hu]
  by_cases hfired : u.status = TimerStatus.fired
  · right
    rw [if_pos hfired, hf]
  · left
    rw [if_neg hfired]

/-! ## Lists of goroutines -/

theorem filterMap_set_same {β γ : Type} (k : β → Option γ) (l : List β) (i : Nat) (a b : β)
    (hi : l[i]? = some a) (hk : k b = k a) : (l.set i b).filterMap k = l.filterMap k := by
  induction l generalizing i with
  | nil => simp at hi
  | cons x xs ih =>
    cases i with
    | zero =>
      simp at hi
      subst hi
      simp [List.filterMap_cons, hk]
    | succ i =>
      simp at hi
      simp [List.filterMap_cons, ih i hi]

theorem filterMap_set_remove {β γ : Type} (k : β → Option γ) (l : List β) (i : Nat) (a b : β)
    (x : γ) (hi : l[i]? = some a) (ha : k a = some x) (hb : k b = none) :
    List.Perm (x :: (l.set i b).filterMap k) (l.filterMap k) := by
  induction l generalizing i with
  | nil => simp at hi
  | cons y ys ih =>
    cases i with
    | zero =>
      simp at hi
      subst hi
      simp [List.filterMap_cons, ha, hb]
    | succ i =>
      simp at hi
      have := ih i hi
      cases hy : k y with
      | none => simpa [List.filterMap_cons, hy] using this
      | some z =>
        simp only [List.set_cons_succ, List.filterMap_cons, hy]
        exact (List.Perm.swap z x _).trans (List.Perm.cons z this)

theorem filterMap_set_add {β γ : Type} (k : β → Option γ) (l : List β) (i : Nat) (a b : β)
    (y : γ) (hi : l[i]? = some a) (ha : k a = none) (hb : k b = some y) :
    List.Perm ((l.set i b).filterMap k) (y :: l.filterMap k) := by
  induction l generalizing i with
  | nil => simp at hi
  | cons u us ih =>
    cases i with
    | zero =>
      simp at hi
      subst hi
      simp [List.filterMap_cons, ha, hb]
    | succ i =>
      simp at hi
      have := ih i hi
      cases hu : k u with
      | none => simpa [List.filterMap_cons, hu] using this
      | some z =>
        simp only [List.set_cons_succ, List.filterMap_cons, hu]
        exact (List.Perm.cons z this).trans (List.Perm.swap y z _)

theorem filterMap_mem_of_getElem? {β γ : Type} (k : β → Option γ) (l : List β) (i : Nat) (a : β)
    (x : γ) (hi : l[i]? = some a) (ha : k a = some x) : x ∈ l.filterMap k := by
  rw [List.mem_filterMap]
  exact ⟨a, List.getElem?_mem hi, ha⟩

theorem filterMap_set_single {β γ : Type} (k : β → Option γ) (l : List β) (i : Nat) (a b : β)
    (x x₀ : γ) (hi : l[i]? = some a) (ha : k a = some x) (hl : l.filterMap k = [x₀]) :
    (l.set i b).filterMap k = (k b).toList := by
  induction l generalizing i with
  | nil => simp at hi
  | cons y ys ih =>
    cases i with
    | zero =>
      simp at hi
      subst hi
      simp only [List.filterMap_cons, ha, List.cons.injEq] at hl
      simp only [List.set_cons_zero, List.filterMap_cons, hl.2]
      cases k b <;> rfl
    | succ i =>
      simp at hi
      have hmem := filterMap_mem_of_getElem? k ys i a x hi ha
      cases hy : k y with
      | none =>
        simp only [List.filterMap_cons, hy] at hl
        simp only [List.set_cons_succ, List.filterMap_cons, hy]
        exact ih i hi hl
      | some z =>
        simp only [List.filterMap_cons, hy, List.cons.injEq] at hl
        rw [hl.2] at hmem
        simp at hmem

theorem short_set {β : Type} (l : List (List β)) (i : Nat) (st : List β)
    (h : ∀ s ∈ l, s.length ≤ 1) (hst : st.length ≤ 1) : ∀ s ∈ l.set i st, s.length ≤ 1 := by
  intro s hs
  rcases List.mem_or_eq_of_mem_set hs with h' | h'
  · exact h s h'
  · rw [h']
    exact hst

theorem submitted_append {α : Type} (tr₁ tr₂ : List (Step α)) :
    submitted (tr₁ ++ tr₂) = submitted tr₁ ++ submitted tr₂ := by
  induction tr₁ with
  | nil => rfl
  | cons s tr ih =>
    cases s with
    | submit f => simp [submitted, ih]
    | submitPanic f => simp [submitted, ih]
    | expire i => simpa [submitted] using ih

theorem waiting_start {α : Type} (w : World α) (fs : List α) : waiting (start w fs) = fs := by
  unfold waiting start
  induction fs with
  | nil => rfl
  | cons f fs ih => simpa [List.filterMap_cons, waitingFor] using ih

theorem critical_start {α : Type} (w : World α) (fs : List α) : critical (start w fs) = [] := by
  unfold critical start
  induction fs with
  | nil => rfl
  | cons f fs ih => simp [List.filterMap_cons, crit]

theorem Ser_start {α : Type} (w : World α) (fs : List α) : Ser w fs (start w fs) [] [] := by
  refine ⟨?_, ?_, Or.inl ⟨rfl, critical_start w fs, rfl, rfl⟩⟩
  · intro st hst
    simp only [start, List.mem_map] at hst
    obtain ⟨f, _, rfl⟩ := hst
    simp
  · rw [waiting_start]
    exact List.Perm.refl _

/-! ## The mutex serializes the calls -/

theorem holds_timers_not_armed {α : Type} (fr : Frame α) (base cw : World α) (hb : Inv base)
    (hh : holds fr base cw) (h₁ : fr.pc ≠ Pc.stop) (h₂ : fr.pc ≠ Pc.unlock)
    (tid : Nat) (t : Timer α) (ht : cw.timers[tid]? = some t) :
    t.status ≠ TimerStatus.armed := by
  obtain ⟨pc, f⟩ := fr
  cases pc <;> simp only [holds] at hh
  · exact absurd rfl h₁
  · rw [hh] at ht
    exact stopTimer_not_armed base hb tid t ht
  · rw [hh.1] at ht
    exact stopTimer_not_armed base hb tid t ht
  · rw [hh.1] at ht
    exact stopTimer_not_armed base hb tid t ht
  · rw [hh.1] at ht
    exact stopTimer_not_armed base hb tid t ht
  · rw [hh.1] at ht
    exact stopTimer_not_armed base hb tid t ht
  · exact absurd rfl h₂

theorem Ser_inside {α : Type} (w : World α) (fs : List α) (c c' : Config α)
    (tr tr' : List (Step α)) (acq : List α) (i : Nat) (fr fr' : Frame α)
    (hs : Ser w fs c tr acq) (hi : c.threads[i]? = some [fr]) (hpc : fr.pc ≠ Pc.lock)
    (hpc' : fr'.pc ≠ Pc.lock) (hl : c'.locked = true) (hth : c'.threads = c.threads.set i [fr'])
    (hh : holds fr (run w tr) c.w →
      acq = submitted tr ++ (if fr.pc = Pc.unlock then [] else [fr.f]) →
      holds fr' (run w tr') c'.w ∧
        acq = submitted tr' ++ (if fr'.pc = Pc.unlock then [] else [fr'.f])) :
    Ser w fs c' tr' acq := by
  have hcrit : crit [fr] = some fr := by simp [crit, hpc]
  have hcrit' : crit [fr'] = some fr' := by simp [crit, hpc']
  have hwait : waitingFor [fr'] = waitingFor [fr] := by simp [waitingFor, hpc, hpc']
  have hmem := filterMap_mem_of_getElem? crit c.threads i [fr] fr hi hcrit
  refine ⟨?_, ?_, ?_⟩
  · rw [hth]
    exact short_set _ _ _ hs.short (by simp)
  · have : waiting c' = waiting c := by
      unfold waiting
      rw [hth]
      exact filterMap_set_same waitingFor c.threads i [fr] [fr'] hi hwait
    rw [this]
    exact hs.perm
  · rcases hs.state with ⟨_, hnil, _, _⟩ | ⟨_, fr₀, hone, hrel, hacq⟩
    · unfold critical at hnil
      rw [hnil] at hmem
      simp at hmem
    · have hone' := hone
      unfold critical at hone
      rw [hone] at hmem
      have hfr : fr = fr₀ := by simpa using hmem
      subst hfr
      obtain ⟨hrel', hacq'⟩ := hh hrel hacq
      refine Or.inr ⟨hl, fr', ?_, hrel', hacq'⟩
      unfold critical
      rw [hth, filterMap_set_single crit c.threads i [fr] [fr'] fr fr hi hcrit hone, hcrit']
      rfl

theorem Ser_holder {α : Type} (w : World α) (fs : List α) (c : Config α)
    (tr : List (Step α)) (acq : List α) (i : Nat) (fr : Frame α)
    (hs : Ser w fs c tr acq) (hi : c.threads[i]? = some [fr]) (hpc : fr.pc ≠ Pc.lock) :
    c.locked = true ∧ critical c = [fr] ∧ holds fr (run w tr) c.w ∧
      acq = submitted tr ++ (if fr.pc = Pc.unlock then [] else [fr.f]) := by
  have hcrit : crit [fr] = some fr := by simp [crit, hpc]
  have hmem := filterMap_mem_of_getElem? crit c.threads i [fr] fr hi hcrit
  rcases hs.state with ⟨_, hnil, _, _⟩ | ⟨hl, fr₀, hone, hrel, hacq⟩
  · unfold critical at hnil
    rw [hnil] at hmem
    simp at hmem
  · have hone' := hone
    unfold critical at hone'
    rw [hone'] at hmem
    have hfr : fr = fr₀ := by simpa using hmem
    subst hfr
    exact ⟨hl, hone, hrel, hacq⟩

theorem cexpire_noReentry {α : Type} (c : Config α) (tid : Nat) :
    cexpire noReentry c tid = { c with w := expire c.w tid } := by
  unfold cexpire
  split
  · rename_i t ht
    split
    · simp [spawned, noReentry]
    · rename_i hna
      rw [expire_of_not_armed c.w tid (fun u hu => by rw [ht] at hu; cases hu; exact hna)]
  · rename_i hnone
    rw [expire_of_not_armed c.w tid (fun u hu => by rw [hnone] at hu; cases hu)]

theorem commit_expire {α : Type} (c : Config α) (tid : Nat) :
    commit c (Choice.expire tid) =
      match c.w.timers[tid]? with
      | some t => if t.status = TimerStatus.armed then [Step.expire tid] else []
      | none => [] := rfl

theorem commit_expire_of_not_armed {α : Type} (c : Config α) (tid : Nat)
    (h : ∀ t : Timer α, c.w.timers[tid]? = some t → t.status ≠ TimerStatus.armed) :
    commit c (Choice.expire tid) = [] := by
  rw [commit_expire]
  split
  · rename_i t ht
    rw [if_neg (h t ht)]
  · rfl

theorem run_commit_expire {α : Type} (w : World α) (tr : List (Step α)) (c : Config α)
    (tid : Nat) (h : c.w = run w tr) :
    run w (tr ++ commit c (Choice.expire tid)) = expire c.w tid := by
  by_cases ha : ∀ t : Timer α, c.w.timers[tid]? = some t → t.status ≠ TimerStatus.armed
  · rw [commit_expire_of_not_armed c tid ha, expire_of_not_armed c.w tid ha, List.append_nil, h]
  · push_neg at ha
    obtain ⟨t, ht, hta⟩ := ha
    have : commit c (Choice.expire tid) = [Step.expire tid] := by
      simp [commit, ht, hta]
    rw [this, run_snoc, h]
    rfl

theorem submitted_commit_expire {α : Type} (c : Config α) (tid : Nat) :
    submitted (commit c (Choice.expire tid)) = [] := by
  rw [commit_expire]
  split
  · split <;> rfl
  · rfl

theorem Ser_expire {α : Type} (w : World α) (hw : Reachable w) (fs : List α) (c : Config α)
    (tr : List (Step α)) (acq : List α) (tid : Nat) (hs : Ser w fs c tr acq) :
    Ser w fs (cexpire noReentry c tid) (tr ++ commit c (Choice.expire tid)) acq := by
  rw [cexpire_noReentry]
  have hbase : Inv (run w tr) := Inv_of_reachable _ (Reachable_run w tr hw)
  have hsub : submitted (tr ++ commit c (Choice.expire tid)) = submitted tr := by
    rw [submitted_append, submitted_commit_expire, List.append_nil]
  refine ⟨hs.short, hs.perm, ?_⟩
  rcases hs.state with ⟨hl, hnil, hw', hacq⟩ | ⟨hl, fr, hone, hrel, hacq⟩
  · exact Or.inl ⟨hl, hnil, (run_commit_expire w tr c tid hw').symm, hsub.trans hacq⟩
  · refine Or.inr ⟨hl, fr, hone, ?_, by rw [hsub]; exact hacq⟩
    by_cases h₁ : fr.pc = Pc.stop
    · obtain ⟨pc, f⟩ := fr
      simp only at h₁
      subst h₁
      simp only [holds] at hrel ⊢
      exact (run_commit_expire w tr c tid hrel).symm
    · by_cases h₂ : fr.pc = Pc.unlock
      · obtain ⟨pc, f⟩ := fr
        simp only at h₂
        subst h₂
        simp only [holds] at hrel ⊢
        exact (run_commit_expire w tr c tid hrel).symm
      · have hna := holds_timers_not_armed fr _ c.w hbase hrel h₁ h₂ tid
        rw [commit_expire_of_not_armed c tid hna, List.append_nil]
        show holds fr (run w tr) (expire c.w tid)
        rw [expire_of_not_armed c.w tid hna]
        exact hrel

theorem Ser_thread {α : Type} (w : World α) (fs : List α) (c : Config α)
    (tr : List (Step α)) (acq : List α) (i : Nat) (hs : Ser w fs c tr acq) :
    Ser w fs (cstep noReentry c (Choice.thread i)) (tr ++ commit c (Choice.thread i))
      (acq ++ acquire c (Choice.thread i)) := by
  cases hth : c.threads[i]? with
  | none =>
    simp only [cstep, commit, acquire, hth, List.append_nil]
    exact hs
  | some st =>
    cases st with
    | nil =>
      simp only [cstep, commit, acquire, hth, List.append_nil]
      exact hs
    | cons fr rest =>
      have hrest : rest = [] := by
        have := hs.short _ (List.getElem?_mem hth)
        simp at this
        exact this
      subst hrest
      obtain ⟨pc, f⟩ := fr
      by_cases hpc : pc = Pc.lock
      · subst hpc
        have hcm : commit c (Choice.thread i) = [] := by simp [commit, hth]
        rw [hcm, List.append_nil]
        cases hl : c.locked with
        | true =>
          have hc : cstep noReentry c (Choice.thread i) = c := by
            simp [cstep, hth, frameStep, hl]
          have haq : acquire c (Choice.thread i) = [] := by simp [acquire, hth, hl]
          rw [hc, haq, List.append_nil]
          exact hs
        | false =>
          have hc : cstep noReentry c (Choice.thread i) =
              { c with locked := true, threads := c.threads.set i [{ pc := Pc.stop, f := f }] } := by
            simp [cstep, hth, frameStep, hl]
          have haq : acquire c (Choice.thread i) = [f] := by simp [acquire, hth, hl]
          rw [hc, haq]
          rcases hs.state with ⟨_, hnil, hw', hacq⟩ | ⟨hl', _⟩
          · refine ⟨short_set _ _ _ hs.short (by simp), ?_,
              Or.inr ⟨rfl, { pc := Pc.stop, f := f }, ?_, ?_, ?_⟩⟩
            · have hrem := filterMap_set_remove waitingFor c.threads i
                [{ pc := Pc.lock, f := f }] [{ pc := Pc.stop, f := f }] f hth
                (by simp [waitingFor]) (by simp [waitingFor])
              have : List.Perm ((acq ++ [f]) ++
                  (c.threads.set i [{ pc := Pc.stop, f := f }]).filterMap waitingFor)
                  (acq ++ waiting c) := by
                rw [List.append_assoc]
                exact List.Perm.append_left acq hrem
              exact this.trans hs.perm
            · have hadd := filterMap_set_add crit c.threads i
                [{ pc := Pc.lock, f := f }] [{ pc := Pc.stop, f := f }] { pc := Pc.stop, f := f }
                hth (by simp [crit]) (by simp [crit])
              unfold critical at hnil ⊢
              rw [hnil] at hadd
              exact List.perm_singleton.mp hadd
            · simp only [holds]
              exact hw'
            · simp [hacq]
          · rw [hl] at hl'
            cases hl'
      · obtain ⟨hl, hone, hrel, hacq⟩ :=
          Ser_holder w fs c tr acq i { pc := pc, f := f } hs hth hpc
        have haq : acquire c (Choice.thread i) = [] := by simp [acquire, hth, hpc]
        rw [haq, List.append_nil]
        cases pc with
        | lock => exact absurd rfl hpc
        | stop =>
          have hcm : commit c (Choice.thread i) = [] := by simp [commit, hth]
          rw [hcm, List.append_nil]
          apply Ser_inside w fs c _ tr tr acq i _ { pc := Pc.test, f := f } hs hth hpc (by simp)
          · simpa [cstep, hth, frameStep] using hl
          · simp [cstep, hth, frameStep]
          · intro hr ha
            simp only [holds] at hr
            refine ⟨?_, by simpa using ha⟩
            simp [cstep, hth, frameStep, holds, hr]
        | test =>
          have hcm : commit c (Choice.thread i) = [] := by simp [commit, hth]
          rw [hcm, List.append_nil]
          simp only [holds] at hrel
          by_cases hcr : c.w.d.count = c.w.d.reps
          · apply Ser_inside w fs c _ tr tr acq i _ { pc := Pc.call, f := f } hs hth hpc (by simp)
            · simpa [cstep, hth, frameStep, hcr] using hl
            · simp [cstep, hth, frameStep, hcr]
            · intro _ ha
              refine ⟨?_, by simpa using ha⟩
              rw [hrel, stopTimer_d] at hcr
              simp [cstep, hth, frameStep, holds, hrel, stopTimer_d, hcr]
          · apply Ser_inside w fs c _ tr tr acq i _ { pc := Pc.incr, f := f } hs hth hpc (by simp)
            · simpa [cstep, hth, frameStep, hcr] using hl
            · simp [cstep, hth, frameStep, hcr]
            · intro _ ha
              refine ⟨?_, by simpa using ha⟩
              rw [hrel, stopTimer_d] at hcr
              simp [cstep, hth, frameStep, holds, hrel, stopTimer_d, hcr]
        | call =>
          have hcm : commit c (Choice.thread i) = [] := by simp [commit, hth]
          rw [hcm, List.append_nil]
          simp only [holds] at hrel
          apply Ser_inside w fs c _ tr tr acq i _ { pc := Pc.reset, f := f } hs hth hpc (by simp)
          · simpa [cstep, hth, frameStep] using hl
          · simp [cstep, hth, frameStep, noReentry]
          · intro _ ha
            refine ⟨?_, by simpa using ha⟩
            simp [cstep, hth, frameStep, holds, hrel.1, hrel.2, stopTimer_log]
        | inCall => simp [holds] at hrel
        | reset =>
          have hcm : commit c (Choice.thread i) = [Step.submit f] := by simp [commit, hth]
          rw [hcm]
          simp only [holds] at hrel
          apply Ser_inside w fs c _ tr _ acq i _ { pc := Pc.unlock, f := f } hs hth hpc (by simp)
          · simpa [cstep, hth, frameStep] using hl
          · simp [cstep, hth, frameStep]
          · intro _ ha
            refine ⟨?_, by simpa [submitted_append, submitted] using ha⟩
            simp only [holds]
            rw [run_snoc]
            simp only [step]
            rw [add_reps _ f hrel.2]
            simp [cstep, hth, frameStep, hrel.1, stopTimer_d]
        | incr =>
          have hcm : commit c (Choice.thread i) = [] := by simp [commit, hth]
          rw [hcm, List.append_nil]
          simp only [holds] at hrel
          apply Ser_inside w fs c _ tr tr acq i _ { pc := Pc.arm, f := f } hs hth hpc (by simp)
          · simpa [cstep, hth, frameStep] using hl
          · simp [cstep, hth, frameStep]
          · intro _ ha
            refine ⟨?_, by simpa using ha⟩
            simp [cstep, hth, frameStep, holds, hrel.1, hrel.2, stopTimer_d]
        | arm =>
          have hcm : commit c (Choice.thread i) = [Step.submit f] := by simp [commit, hth]
          rw [hcm]
          simp only [holds] at hrel
          apply Ser_inside w fs c _ tr _ acq i _ { pc := Pc.unlock, f := f } hs hth hpc (by simp)
          · simpa [cstep, hth, frameStep] using hl
          · simp [cstep, hth, frameStep]
          · intro _ ha
            refine ⟨?_, by simpa [submitted_append, submitted] using ha⟩
            simp only [holds]
            rw [run_snoc]
            simp only [step]
            rw [add_delay _ f hrel.2]
            simp [cstep, hth, frameStep, AfterFunc, hrel.1, stopTimer_length, stopTimer_log]
        | unlock =>
          have hcm : commit c (Choice.thread i) = [] := by simp [commit, hth]
          have hc : cstep noReentry c (Choice.thread i) =
              { c with locked := false, threads := c.threads.set i [] } := by
            simp [cstep, hth, frameStep]
          rw [hcm, List.append_nil, hc]
          simp only [holds] at hrel
          refine ⟨short_set _ _ _ hs.short (by simp), ?_, Or.inl ⟨rfl, ?_, hrel, ?_⟩⟩
          · have : waiting { c with locked := false, threads := c.threads.set i [] } =
                waiting c := by
              unfold waiting
              exact filterMap_set_same waitingFor c.threads i _ [] hth (by simp [waitingFor])
            rw [this]
            exact hs.perm
          · unfold critical at hone ⊢
            rw [filterMap_set_single crit c.threads i _ [] { pc := Pc.unlock, f := f }
              { pc := Pc.unlock, f := f } hth (by simp [crit]) hone]
            rfl
          · simpa using hacq.symm

theorem Ser_step {α : Type} (w : World α) (hw : Reachable w) (fs : List α) (c : Config α)
    (tr : List (Step α)) (acq : List α) (ch : Choice) (hs : Ser w fs c tr acq) :
    Ser w fs (cstep noReentry c ch) (tr ++ commit c ch) (acq ++ acquire c ch) := by
  cases ch with
  | thread i => exact Ser_thread w fs c tr acq i hs
  | expire tid =>
    have : acquire c (Choice.expire tid) = [] := rfl
    rw [this, List.append_nil]
    exact Ser_expire w hw fs c tr acq tid hs

theorem Ser_crun {α : Type} (w : World α) (hw : Reachable w) (fs : List α)
    (sched : List Choice) (c : Config α) (tr : List (Step α)) (acq : List α)
    (hs : Ser w fs c tr acq) :
    Ser w fs (crun noReentry c sched) (tr ++ linearize noReentry c sched)
      (acq ++ lockOrder noReentry c sched) := by
  induction sched generalizing c tr acq with
  | nil => simpa [crun, linearize, lockOrder] using hs
  | cons ch sched ih =>
    have := ih _ _ _ (Ser_step w hw fs c tr acq ch hs)
    simpa [crun, linearize, lockOrder, List.append_assoc] using this

theorem Ser_of_start {α : Type} (w : World α) (hw : Reachable w) (fs : List α)
    (sched : List Choice) :
    Ser w fs (crun noReentry (start w fs) sched) (linearize noReentry (start w fs) sched)
      (lockOrder noReentry (start w fs) sched) := by
  have := Ser_crun w hw fs sched _ _ _ (Ser_start w fs)
  simpa using this

theorem allDone_lists {α : Type} (c : Config α) (h : allDone c) :
    critical c = [] ∧ waiting c = [] := by
  unfold critical waiting
  constructor
  · apply List.filterMap_eq_nil_iff.mpr
    intro st hst
    rw [h st hst]
    rfl
  · apply List.filterMap_eq_nil_iff.mpr
    intro st hst
    rw [h st hst]
    rfl

theorem expire_armed_back {α : Type} (w : World α) (tid i : Nat) (t : Timer α)
    (ht : (expire w tid).timers[i]? = some t) (ha : t.status = TimerStatus.armed) :
    w.timers[i]? = some t := by
  by_cases h : ∀ u : Timer α, w.timers[tid]? = some u → u.status ≠ TimerStatus.armed
  · rwa [expire_of_not_armed w tid h] at ht
  · push_neg at h
    obtain ⟨u, hu, hua⟩ := h
    rw [expire_of_armed w tid u hu hua] at ht
    simp only [updateAt_getElem?] at ht
    by_cases hi : i = tid
    · rw [if_pos hi, hi, hu] at ht
      simp [Timer.fire_of_armed u hua] at ht
      rw [← ht] at ha
      simp at ha
    · rwa [if_neg hi] at ht

theorem quiet_run_armed_back {α : Type} (tail : List (Step α)) (w : World α) (i : Nat)
    (t : Timer α) (hq : quiet tail = true) (ht : (run w tail).timers[i]? = some t)
    (ha : t.status = TimerStatus.armed) : w.timers[i]? = some t := by
  induction tail generalizing w with
  | nil => exact ht
  | cons s tail ih =>
    cases s with
    | submit f => simp [quiet] at hq
    | submitPanic f => simp [quiet] at hq
    | expire tid =>
      simp only [quiet] at hq
      exact expire_armed_back w tid i t (ih (expire w tid) hq ht) ha

theorem quiet_run_of_no_pending {α : Type} (tail : List (Step α)) (w : World α)
    (hq : quiet tail = true) (hp : pending w = []) : run w tail = w := by
  induction tail with
  | nil => rfl
  | cons s tail ih =>
    cases s with
    | submit f => simp [quiet] at hq
    | submitPanic f => simp [quiet] at hq
    | expire tid =>
      simp only [quiet] at hq
      have hno : expire w tid = w := by
        apply expire_of_not_armed
        intro t ht hta
        have : tid ∈ pending w := (mem_pending w tid).mpr ⟨t, ht, hta⟩
        rw [hp] at this
        simp at this
      rw [run_cons]
      simp only [step, hno]
      exact ih hq

/-! ## A call that runs without interruption -/

theorem crun_append {α : Type} (body : α → Option α) (c : Config α) (s₁ s₂ : List Choice) :
    crun body c (s₁ ++ s₂) = crun body (crun body c s₁) s₂ := by
  simp [crun, List.foldl_append]

theorem solo_add {α : Type} (body : α → Option α) (c : Config α) (i : Nat) (g : α)
    (rest : List (Frame α)) (hl : c.locked = false)
    (hth : c.threads[i]? = some ({ pc := Pc.lock, f := g } :: rest))
    (hb : body g = none ∨ c.w.d.count ≠ c.w.d.reps) :
    crun body c (List.replicate 6 (Choice.thread i)) =
      { w := add c.w g, locked := false, threads := c.threads.set i rest } := by
  have hi : i < c.threads.length := (List.getElem?_eq_some.mp hth).1
  by_cases hc : c.w.d.count = c.w.d.reps
  · have hb' : body g = none := by
      rcases hb with h | h
      · exact h
      · exact absurd hc h
    simp [crun, List.replicate, cstep, frameStep, hth, hl, hi, hc, hb', stopTimer_d,
      List.set_set, add_reps c.w g hc, stopTimer_log]
  · simp [crun, List.replicate, cstep, frameStep, hth, hl, hi, hc, stopTimer_d,
      List.set_set, add_delay c.w g hc, AfterFunc, stopTimer_length, stopTimer_log]

/-! ## The calls always complete -/

theorem sum_map_set {β : Type} (m : β → Nat) (l : List β) (i : Nat) (a x : β)
    (hi : l[i]? = some a) : ((l.set i x).map m).sum + m a = (l.map m).sum + m x := by
  induction l generalizing i with
  | nil => simp at hi
  | cons y ys ih =>
    cases i with
    | zero =>
      simp at hi
      subst hi
      simp
      omega
    | succ i =>
      simp at hi
      have := ih i hi
      simp only [List.set_cons_succ, List.map_cons, List.sum_cons]
      omega

theorem remaining_pos (pc : Pc) : 0 < remaining pc := by
  cases pc <;> simp [remaining]

theorem allDone_of_work_zero {α : Type} (c : Config α) (h : work c = 0) : allDone c := by
  intro st hst
  unfold work at h
  have hz : stackWork st = 0 := by
    have := List.sum_eq_zero_iff.mp h (stackWork st) (List.mem_map.mpr ⟨st, hst, rfl⟩)
    exact this
  cases st with
  | nil => rfl
  | cons fr rest =>
    have := remaining_pos fr.pc
    simp only [stackWork] at hz
    omega

theorem work_thread_lt {α : Type} (c : Config α) (i : Nat) (fr : Frame α)
    (hth : c.threads[i]? = some [fr]) (hen : fr.pc = Pc.lock → c.locked = false)
    (hin : fr.pc ≠ Pc.inCall) :
    work (cstep noReentry c (Choice.thread i)) < work c := by
  obtain ⟨pc, f⟩ := fr
  have key : ∀ st' : List (Frame α),
      (cstep noReentry c (Choice.thread i)).threads = c.threads.set i st' →
      stackWork st' < remaining pc →
      work (cstep noReentry c (Choice.thread i)) < work c := by
    intro st' hset hlt
    unfold work
    rw [hset]
    have := sum_map_set stackWork c.threads i [{ pc := pc, f := f }] st' hth
    have h₁ : stackWork [({ pc := pc, f := f } : Frame α)] = remaining pc := rfl
    rw [h₁] at this
    omega
  cases pc with
  | lock =>
    have hl := hen rfl
    exact key [{ pc := Pc.stop, f := f }] (by simp [cstep, hth, frameStep, hl])
      (by simp [stackWork, remaining])
  | stop =>
    exact key [{ pc := Pc.test, f := f }] (by simp [cstep, hth, frameStep])
      (by simp [stackWork, remaining])
  | test =>
    by_cases hc : c.w.d.count = c.w.d.reps
    · exact key [{ pc := Pc.call, f := f }] (by simp [cstep, hth, frameStep, hc])
        (by simp [stackWork, remaining])
    · exact key [{ pc := Pc.incr, f := f }] (by simp [cstep, hth, frameStep, hc])
        (by simp [stackWork, remaining])
  | call =>
    exact key [{ pc := Pc.reset, f := f }] (by simp [cstep, hth, frameStep, noReentry])
      (by simp [stackWork, remaining])
  | inCall => exact absurd rfl hin
  | reset =>
    exact key [{ pc := Pc.unlock, f := f }] (by simp [cstep, hth, frameStep])
      (by simp [stackWork, remaining])
  | incr =>
    exact key [{ pc := Pc.arm, f := f }] (by simp [cstep, hth, frameStep])
      (by simp [stackWork, remaining])
  | arm =>
    exact key [{ pc := Pc.unlock, f := f }] (by simp [cstep, hth, frameStep, AfterFunc])
      (by simp [stackWork, remaining])
  | unlock =>
    exact key [] (by simp [cstep, hth, frameStep]) (by simp [stackWork, remaining])

theorem Ser_enabled {α : Type} (w : World α) (fs : List α) (c : Config α)
    (tr : List (Step α)) (acq : List α) (hs : Ser w fs c tr acq) (hpos : 0 < work c) :
    ∃ i, work (cstep noReentry c (Choice.thread i)) < work c := by
  rcases hs.state with ⟨hl, hnil, _, _⟩ | ⟨_, fr, hone, hrel, _⟩
  · have hex : ∃ st ∈ c.threads, st ≠ [] := by
      by_contra hno
      push_neg at hno
      have : work c = 0 := by
        unfold work
        apply List.sum_eq_zero_iff.mpr
        intro x hx
        obtain ⟨st, hst, rfl⟩ := List.mem_map.mp hx
        rw [hno st hst]
        rfl
      omega
    obtain ⟨st, hst, hne⟩ := hex
    obtain ⟨i, hi⟩ := List.mem_iff_getElem?.mp hst
    cases st with
    | nil => exact absurd rfl hne
    | cons fr rest =>
      have hrest : rest = [] := by
        have := hs.short _ hst
        simp at this
        exact this
      subst hrest
      have hpc : fr.pc = Pc.lock := by
        by_contra hpc
        have := filterMap_mem_of_getElem? crit c.threads i [fr] fr hi (by simp [crit, hpc])
        unfold critical at hnil
        rw [hnil] at this
        simp at this
      exact ⟨i, work_thread_lt c i fr hi (fun _ => hl) (by rw [hpc]; simp)⟩
  · have hmem : fr ∈ c.threads.filterMap crit := by
      unfold critical at hone
      rw [hone]
      simp
    obtain ⟨st, hst, hcrit⟩ := List.mem_filterMap.mp hmem
    obtain ⟨i, hi⟩ := List.mem_iff_getElem?.mp hst
    cases st with
    | nil => simp [crit] at hcrit
    | cons fr' rest =>
      have hrest : rest = [] := by
        have := hs.short _ hst
        simp at this
        exact this
      subst hrest
      have hpc : fr'.pc ≠ Pc.lock := by
        intro hpc
        simp [crit, hpc] at hcrit
      have hfr : fr' = fr := by simpa [crit, hpc] using hcrit
      subst hfr
      refine ⟨i, work_thread_lt c i fr' hi (fun h => absurd h hpc) ?_⟩
      intro hin
      obtain ⟨pc, f⟩ := fr'
      simp only at hin
      subst hin
      simp [holds] at hrel

theorem Ser_complete {α : Type} (w : World α) (hw : Reachable w) (fs : List α) (n : Nat)
    (c : Config α) (tr : List (Step α)) (acq : List α) (hs : Ser w fs c tr acq)
    (hn : work c ≤ n) : ∃ more, allDone (crun noReentry c more) := by
  induction n generalizing c tr acq with
  | zero => exact ⟨[], allDone_of_work_zero c (by omega)⟩
  | succ n ih =>
    by_cases hz : work c = 0
    · exact ⟨[], allDone_of_work_zero c hz⟩
    · obtain ⟨i, hlt⟩ := Ser_enabled w fs c tr acq hs (by omega)
      obtain ⟨more, hmore⟩ := ih _ _ _ (Ser_step w hw fs c tr acq (Choice.thread i) hs) (by omega)
      exact ⟨Choice.thread i :: more, hmore⟩

/-! ## The counter: resets, meaning, range -/

theorem add_count_of_Inv {α : Type} (w : World α) (f : α) (hw : Inv w) :
    (add w f).d.count = if w.d.count = w.d.reps then 0 else w.d.count + 1 := by
  rw [add_count]
  split
  · rfl
  · rename_i h
    apply Nat.mod_eq_of_lt
    have h₁ := hw.count_le
    have h₂ := hw.reps_lt
    omega

theorem add_log_length {α : Type} (w : World α) (f : α) :
    (add w f).log.length = w.log.length ↔ w.d.count ≠ w.d.reps := by
  rw [add_log]
  split
  · rename_i h
    simp [h]
  · rename_i h
    simp [h]

theorem sinceForced_run {α : Type} (tr : List (Step α)) (w : World α) (hw : Inv w)
    (hcalm : calm tr = true) :
    (run w tr).d.count = sinceForced w tr w.d.count := by
  induction tr generalizing w with
  | nil => rfl
  | cons s tr ih =>
    cases s with
    | submitPanic f => simp [calm] at hcalm
    | submit f =>
      simp only [calm] at hcalm
      rw [run_cons]
      simp only [step, sinceForced]
      rw [ih (add w f) (Inv_add w f hw) hcalm, add_count_of_Inv w f hw]
      by_cases h : w.d.count = w.d.reps
      · rw [if_pos h, if_neg (fun e => (add_log_length w f).mp e h)]
      · rw [if_neg h, if_pos ((add_log_length w f).mpr h)]
    | expire tid =>
      simp only [calm] at hcalm
      rw [run_cons]
      simp only [step, sinceForced]
      rw [ih (expire w tid) (Inv_expire w tid hw) hcalm, expire_d]

theorem addNat_eq {α : Type} (w : World α) (f : α) (hw : Inv w) : addNat w f = add w f := by
  have h₁ := hw.count_le
  have h₂ := hw.reps_lt
  by_cases h : w.d.count = w.d.reps
  · simp [addNat, releaseNat, add, release, stopTimer_d, h]
  · have hmod : (w.d.count + 1) % uint64Mod = w.d.count + 1 := Nat.mod_eq_of_lt (by omega)
    simp [addNat, releaseNat, add, release, stopTimer_d, h, hmod]

theorem addPanicNat_eq {α : Type} (w : World α) (f : α) (hw : Inv w) :
    addPanicNat w f = addPanic w f := by
  have h₁ := hw.count_le
  have h₂ := hw.reps_lt
  by_cases h : w.d.count = w.d.reps
  · simp [addPanicNat, releasePanicNat, addPanic, releasePanic, stopTimer_d, h]
  · have hmod : (w.d.count + 1) % uint64Mod = w.d.count + 1 := Nat.mod_eq_of_lt (by omega)
    simp [addPanicNat, releasePanicNat, addPanic, releasePanic, stopTimer_d, h, hmod]

theorem runNat_eq {α : Type} (tr : List (Step α)) (w : World α) (hw : Inv w) :
    runNat w tr = run w tr := by
  induction tr generalizing w with
  | nil => rfl
  | cons s tr ih =>
    cases s with
    | submit f =>
      show runNat (addNat w f) tr = run (add w f) tr
      rw [addNat_eq w f hw]
      exact ih _ (Inv_add w f hw)
    | submitPanic f =>
      show runNat (addPanicNat w f) tr = run (addPanic w f) tr
      rw [addPanicNat_eq w f hw]
      exact ih _ (Inv_addPanic w f hw)
    | expire tid => exact ih _ (Inv_expire w tid hw)

/-! ## The mutex and calls made from a submitted function -/

theorem cstep_stuck (ch : Choice) : cstep reenter stuck ch = stuck := by
  cases ch with
  | thread i =>
    cases i with
    | zero => rfl
    | succ k => rfl
  | expire tid => rfl

theorem crun_stuck (sched : List Choice) : crun reenter stuck sched = stuck := by
  induction sched with
  | nil => rfl
  | cons ch sched ih =>
    show crun reenter (cstep reenter stuck ch) sched = stuck
    rw [cstep_stuck]
    exact ih

theorem cstep_locked {α : Type} (body : α → Option α) (c : Config α) (ch : Choice)
    (h : (cstep body c ch).locked ≠ c.locked) :
    ∃ i fr rest, ch = Choice.thread i ∧ c.threads[i]? = some (fr :: rest) ∧
      (fr.pc = Pc.lock ∨ fr.pc = Pc.unlock) := by
  cases ch with
  | expire tid =>
    exfalso
    apply h
    simp only [cstep, cexpire]
    split
    · split <;> rfl
    · rfl
  | thread i =>
    cases hth : c.threads[i]? with
    | none => simp [cstep, hth] at h
    | some st =>
      cases st with
      | nil => simp [cstep, hth] at h
      | cons fr rest =>
        refine ⟨i, fr, rest, rfl, hth, ?_⟩
        obtain ⟨pc, f⟩ := fr
        cases pc with
        | lock => exact Or.inl rfl
        | unlock => exact Or.inr rfl
        | test =>
          exfalso
          apply h
          simp only [cstep, hth, frameStep]
          split <;> rfl
        | stop => exact absurd (by simp [cstep, hth, frameStep]) h
        | call => exact absurd (by simp [cstep, hth, frameStep]) h
        | inCall => exact absurd (by simp [cstep, hth, frameStep]) h
        | reset => exact absurd (by simp [cstep, hth, frameStep]) h
        | incr => exact absurd (by simp [cstep, hth, frameStep]) h
        | arm => exact absurd (by simp [cstep, hth, frameStep]) h

theorem cexpire_w {α : Type} (body : α → Option α) (c : Config α) (tid : Nat) :
    (cstep body c (Choice.expire tid)).w = expire c.w tid ∧
    (cstep body c (Choice.expire tid)).locked = c.locked := by
  simp only [cstep, cexpire]
  split
  · rename_i t ht
    split
    · exact ⟨rfl, rfl⟩
    · rename_i hna
      refine ⟨?_, rfl⟩
      rw [expire_of_not_armed c.w tid (fun u hu => by rw [ht] at hu; cases hu; exact hna)]
  · rename_i hnone
    refine ⟨?_, rfl⟩
    rw [expire_of_not_armed c.w tid (fun u hu => by rw [hnone] at hu; cases hu)]

theorem set_length_snoc {β : Type} (l : List β) (a b : β) : (l ++ [a]).set l.length b = l ++ [b] := by
  induction l with
  | nil => rfl
  | cons x xs ih => simp [ih]

theorem timer_call_completes {α : Type} (body : α → Option α) (c : Config α) (tid : Nat)
    (t : Timer α) (g : α) (hl : c.locked = false) (ht : c.w.timers[tid]? = some t)
    (ha : t.status = TimerStatus.armed) (hb : body t.f = some g)
    (hg : body g = none ∨ c.w.d.count ≠ c.w.d.reps) :
    crun body c (Choice.expire tid :: List.replicate 6 (Choice.thread c.threads.length)) =
      { w := add (expire c.w tid) g, locked := false, threads := c.threads ++ [[]] } := by
  have h1 : cstep body c (Choice.expire tid) =
      { c with w := expire c.w tid, threads := c.threads ++ [[{ pc := Pc.lock, f := g }]] } := by
    simp [cstep, cexpire, ht, ha, spawned, hb]
  have hsolo := solo_add body
    { c with w := expire c.w tid, threads := c.threads ++ [[{ pc := Pc.lock, f := g }]] }
    c.threads.length g [] hl (List.getElem?_concat_length _ _)
    (by rw [expire_d]; exact hg)
  have hcons : crun body c
      (Choice.expire tid :: List.replicate 6 (Choice.thread c.threads.length)) =
      crun body (cstep body c (Choice.expire tid))
        (List.replicate 6 (Choice.thread c.threads.length)) := by
    simp only [crun, List.foldl_cons]
  rw [hcons, h1, hsolo, set_length_snoc]

/-! ## Claims -/

/-- C1 (counterexample). On `New(50ms, 1)` after `add(A)` the counter equals `reps`. The call
`add(B)` with a `B` that panics calls `B` inline, once, and stops the timer of `A`, but it
leaves `count` at 1 instead of 0 (line 48 is skipped); the next call, `add(C)`, therefore runs
`C` inline as well. -/
theorem C1_count_not_reset_after_panic :
    full1.d.count = full1.d.reps ∧
    (addPanic full1 Job.B).log = full1.log ++ [Event.sync Job.B] ∧
    pending (addPanic full1 Job.B) = [] ∧
    (addPanic full1 Job.B).d.count = 1 ∧
    (run (New 50 1) [Step.submit Job.A, Step.submitPanic Job.B, Step.submit Job.C]).log =
      [Event.sync Job.B, Event.sync Job.C] := by
  decide

/-- C1 (amended: reps-release step). In every reachable state with `count == reps`, for every
function `f`, whether `f()` returns (`add`) or panics (`addPanic`): the call stops the timer
that was pending (every timer that was pending is stopped afterwards), calls `f` exactly once
inside the call (the log grows by exactly one inline call of `f`) and creates no timer, so that
no timer is pending when the call returns. When `f()` returns, the call also sets `count`
to 0. -/
theorem C1_reps_release {α : Type} (w : World α) (f : α) (hw : Reachable w)
    (h : w.d.count = w.d.reps) :
    ((∀ tid ∈ pending w, ∃ t, (add w f).timers[tid]? = some t ∧ t.status = TimerStatus.stopped) ∧
      (add w f).log = w.log ++ [Event.sync f] ∧
      (add w f).d.count = 0 ∧
      (add w f).timers.length = w.timers.length ∧
      pending (add w f) = []) ∧
    ((∀ tid ∈ pending w,
        ∃ t, (addPanic w f).timers[tid]? = some t ∧ t.status = TimerStatus.stopped) ∧
      (addPanic w f).log = w.log ++ [Event.sync f] ∧
      (addPanic w f).timers.length = w.timers.length ∧
      pending (addPanic w f) = []) := by
  have hi := Inv_of_reachable w hw
  constructor
  · rw [add_reps w f h]
    exact ⟨fun tid ht => stopTimer_cancels w hi tid ht, rfl, rfl, stopTimer_length w,
      pending_stopTimer w hi⟩
  · rw [addPanic_reps w f h]
    exact ⟨fun tid ht => stopTimer_cancels w hi tid ht, rfl, stopTimer_length w,
      pending_stopTimer w hi⟩

/-- Witness for C1 (amended): after three calls on `New(50ms, 3)` the counter equals `reps`;
the fourth call runs its function inline and, when the function returns, resets the counter. -/
theorem C1_reps_release_witness :
    Reachable burst3 ∧ burst3.d.count = burst3.d.reps ∧
    ((∀ tid ∈ pending burst3,
        ∃ t, (add burst3 Job.A).timers[tid]? = some t ∧ t.status = TimerStatus.stopped) ∧
      (add burst3 Job.A).log = burst3.log ++ [Event.sync Job.A] ∧
      (add burst3 Job.A).d.count = 0 ∧
      (add burst3 Job.A).timers.length = burst3.timers.length ∧
      pending (add burst3 Job.A) = []) :=
  ⟨⟨50, 3, _, by decide, rfl⟩, by decide,
    (C1_reps_release burst3 Job.A ⟨50, 3, _, by decide, rfl⟩ (by decide)).1⟩

/-- C2 (delay-release step). In every reachable state with `count != reps`, `add(f)` does not
call `f` during the call (the log is unchanged), stops the timer that was pending, increases
`count` by exactly one, and leaves exactly one pending timer: the new one, stored in `d.timer`,
whose delay is the configured duration and whose function is `f`. -/
theorem C2_delay_release {α : Type} (w : World α) (f : α) (hw : Reachable w)
    (h : w.d.count ≠ w.d.reps) :
    (add w f).log = w.log ∧
    (∀ tid ∈ pending w, ∃ t, (add w f).timers[tid]? = some t ∧ t.status = TimerStatus.stopped) ∧
    (add w f).d.count = w.d.count + 1 ∧
    pending (add w f) = [w.timers.length] ∧
    (add w f).d.timer = some w.timers.length ∧
    (add w f).timers[w.timers.length]? =
      some { delay := w.d.after, f := f, status := TimerStatus.armed } := by
  have hi := Inv_of_reachable w hw
  have hlen := stopTimer_length w
  have hcount : (w.d.count + 1) % uint64Mod = w.d.count + 1 := by
    apply Nat.mod_eq_of_lt
    have h₁ := hi.count_le
    have h₂ := hi.reps_lt
    omega
  rw [add_delay w f h]
  refine ⟨rfl, ?_, hcount, ?_, rfl, ?_⟩
  · intro tid ht
    obtain ⟨t, hts, hst⟩ := stopTimer_cancels w hi tid ht
    refine ⟨t, ?_, hst⟩
    obtain ⟨u, hu, _⟩ := (mem_pending w tid).mp ht
    have hlt : tid < (stopTimer w).timers.length := by
      rw [hlen]
      exact (List.getElem?_eq_some.mp hu).1
    simp only [List.getElem?_append_left hlt]
    exact hts
  · exact (add_delay w f h) ▸ pending_add_delay w f hi h
  · simp only [← hlen]
    exact List.getElem?_concat_length _ _

/-- Witness for C2: after one call on `New(50ms, 3)` the counter is 1, different from `reps`,
and the timer of the first call is pending. -/
theorem C2_delay_release_witness :
    Reachable afterA ∧ afterA.d.count ≠ afterA.d.reps ∧
    ((add afterA Job.B).log = afterA.log ∧
      (∀ tid ∈ pending afterA,
        ∃ t, (add afterA Job.B).timers[tid]? = some t ∧ t.status = TimerStatus.stopped) ∧
      (add afterA Job.B).d.count = afterA.d.count + 1 ∧
      pending (add afterA Job.B) = [afterA.timers.length] ∧
      (add afterA Job.B).d.timer = some afterA.timers.length ∧
      (add afterA Job.B).timers[afterA.timers.length]? =
        some { delay := afterA.d.after, f := Job.B, status := TimerStatus.armed }) :=
  ⟨⟨50, 3, _, by decide, rfl⟩, by decide,
    C2_delay_release afterA Job.B ⟨50, 3, _, by decide, rfl⟩ (by decide)⟩

/-- C3 (counterexample). On `New(50ms, 1)`, after `add(A)` and `add(B)` where `B` panics
inside the call, the third call runs `C` inline although 3 is not a multiple of `1 + 1`. -/
theorem C3_inline_after_panic :
    submits [Step.submit Job.A, Step.submitPanic Job.B] + 1 = 3 ∧
    ¬ (1 + 1) ∣ (submits [Step.submit Job.A, Step.submitPanic Job.B] + 1) ∧
    (add panicked1 Job.C).log = panicked1.log ++ [Event.sync Job.C] := by
  decide

/-- C3 (amended: forced-fire count). On a fresh debouncer `New(D, N)`, along any trace in
which every submitted function returns when it is called (`calm`), whatever timers expire in
between, the `k`-th call (`k = submits tr + 1`, after a trace `tr` holding `k - 1` calls) calls
its function inline if and only if `k` is a multiple of `N + 1`; otherwise the call logs nothing
and leaves its own timer pending. In particular calls `1..N` take the delay path, call `N + 1`
runs its function inline and leaves `count = 0`, and the counter after call `k` is
`k mod (N + 1)`, so the pattern repeats with period `N + 1`. -/
theorem C3_forced_fire_count {α : Type} (after : Int) (N : Nat) (hN : N < uint64Mod)
    (tr : List (Step α)) (f : α) (hcalm : calm tr = true) :
    ((add (run (New after N) tr) f).log = (run (New after N) tr).log ++ [Event.sync f] ↔
      (N + 1) ∣ (submits tr + 1)) ∧
    (¬ (N + 1) ∣ (submits tr + 1) →
      (add (run (New after N) tr) f).log = (run (New after N) tr).log ∧
      pending (add (run (New after N) tr) f) = [(run (New after N) tr).timers.length]) ∧
    (submits tr < N → (add (run (New after N) tr) f).log = (run (New after N) tr).log) ∧
    (submits tr = N →
      (add (run (New after N) tr) f).log = (run (New after N) tr).log ++ [Event.sync f] ∧
      (add (run (New after N) tr) f).d.count = 0) ∧
    ((N + 1) ∣ (submits tr + 1) → (add (run (New after N) tr) f).d.count = 0) ∧
    (add (run (New after N) tr) f).d.count = (submits tr + 1) % (N + 1) := by
  have hreach : Reachable (run (New after N : World α) tr) := ⟨after, N, tr, hN, rfl⟩
  have hc := count_run after N hN tr hcalm
  have hr : (run (New after N : World α) tr).d.reps = N := run_reps tr _
  have hlt : submits tr % (N + 1) < N + 1 := Nat.mod_lt _ (Nat.succ_pos N)
  have hdvd : (N + 1) ∣ (submits tr + 1) ↔ submits tr % (N + 1) = N := by
    rw [Nat.dvd_iff_mod_eq_zero, succ_mod_succ]
    by_cases h : submits tr % (N + 1) = N
    · simp [h]
    · simp [h]
  have hcnt : (add (run (New after N) tr) f).d.count = (submits tr + 1) % (N + 1) := by
    have := count_run after N hN (tr ++ [Step.submit f])
      (by rw [calm_append, hcalm]; rfl)
    rw [run_snoc, submits_append] at this
    simpa [step, submits] using this
  have hsync : submits tr % (N + 1) = N →
      (add (run (New after N) tr) f).log = (run (New after N) tr).log ++ [Event.sync f] := by
    intro h
    rw [add_log, if_pos (by rw [hc, hr, h])]
  have hdelay : submits tr % (N + 1) ≠ N →
      (add (run (New after N) tr) f).log = (run (New after N) tr).log ∧
      pending (add (run (New after N) tr) f) = [(run (New after N) tr).timers.length] := by
    intro h
    have hne : (run (New after N : World α) tr).d.count ≠ (run (New after N : World α) tr).d.reps := by
      rw [hc, hr]
      exact h
    exact ⟨by rw [add_log, if_neg hne], pending_add_delay _ f (Inv_of_reachable _ hreach) hne⟩
  refine ⟨⟨?_, fun h => hsync (hdvd.mp h)⟩, fun h => hdelay (fun e => h (hdvd.mpr e)), ?_, ?_, ?_,
    hcnt⟩
  · intro h
    by_contra hnd
    have := (hdelay (fun e => hnd (hdvd.mpr e))).1
    rw [this] at h
    simpa using congrArg List.length h
  · intro h
    exact (hdelay (by rw [Nat.mod_eq_of_lt (by omega)]; omega)).1
  · intro h
    have hm : submits tr % (N + 1) = N := by rw [Nat.mod_eq_of_lt (by omega)]; exact h
    refine ⟨hsync hm, ?_⟩
    rw [hcnt, ← Nat.dvd_iff_mod_eq_zero]
    exact hdvd.mpr hm
  · intro h
    rw [hcnt, ← Nat.dvd_iff_mod_eq_zero]
    exact h

/-- Witness for C3: `New(50ms, 3)` after the calls `A`, `B`, `C`; the fourth call is the
first one that runs its function inline. -/
theorem C3_forced_fire_count_witness :
    (3 < uint64Mod ∧
      calm [Step.submit Job.A, Step.submit Job.B, Step.submit Job.C] = true) ∧
    (((add burst3 Job.A).log = burst3.log ++ [Event.sync Job.A] ↔ (3 + 1) ∣ (3 + 1)) ∧
      (add burst3 Job.A).d.count = 0) :=
  ⟨⟨by decide, rfl⟩,
    (C3_forced_fire_count 50 3 (by decide)
      [Step.submit Job.A, Step.submit Job.B, Step.submit Job.C] Job.A rfl).1,
    (C3_forced_fire_count 50 3 (by decide)
      [Step.submit Job.A, Step.submit Job.B, Step.submit Job.C] Job.A rfl).2.2.2.2.1
      (by decide)⟩

/-- C4 (code at the failing input). On `New(50ms, 3)` the calls `A`, `B`, `C` in a row call
nothing inline: the third call finds `count = 2`, not `reps = 3`, raises it to 3 and arms a timer
for `C` (timer 2, the only pending one). `C` runs later, when that timer fires. -/
theorem C4_third_call_takes_delay_path :
    burst3.log = [] ∧
    burst3.d.count = 3 ∧
    pending burst3 = [2] ∧
    burst3.timers[2]? = some { delay := 50, f := Job.C, status := TimerStatus.armed } ∧
    (expire burst3 2).log = [Event.fired 2 Job.C] := by
  decide

/-- C5 (degenerate `reps = 0`). On `New(D, 0)`, after any trace of calls and timer expiries,
`count` is 0, the stored timer is `nil` and the timer heap is empty (no timer was ever created);
every `add(f)` changes nothing but the log, to which it appends exactly one inline call of `f`,
and no timer firing is ever logged. -/
theorem C5_reps_zero {α : Type} (after : Int) (tr : List (Step α)) (f : α) :
    (run (New after 0 : World α) tr).d.count = 0 ∧
    (run (New after 0 : World α) tr).d.timer = none ∧
    (run (New after 0 : World α) tr).timers = [] ∧
    add (run (New after 0) tr) f =
      { run (New after 0) tr with log := (run (New after 0) tr).log ++ [Event.sync f] } ∧
    (add (run (New after 0) tr) f).d.count = 0 ∧
    (add (run (New after 0) tr) f).timers = [] ∧
    (∀ tid : Nat, firings tid (add (run (New after 0) tr) f).log = []) := by
  obtain ⟨hd, ht⟩ := run_zero after tr (α := α)
  have hadd : add (run (New after 0) tr) f =
      { run (New after 0) tr with log := (run (New after 0) tr).log ++ [Event.sync f] } := by
    simp [add, release, stopTimer, hd]
  refine ⟨by rw [hd], by rw [hd], ht, hadd, ?_, ?_, ?_⟩
  · rw [hadd, hd]
  · rw [hadd, ht]
  · intro tid
    have hinv : Inv (run (New after 0 : World α) (tr ++ [Step.submit f])) :=
      Inv_run _ _ (Inv_New after 0 (by decide))
    have hfe := hinv.firings_eq tid
    rw [run_snoc] at hfe
    simp only [step] at hfe
    rw [hfe, hadd, ht]
    rfl

/-- C6 (code at the failing input). A negative value reaches `New` only through a conversion
to `uint64`: `uint64(-1)` is `2^64 - 1`, and `New` stores it as an ordinary threshold. The
reps-release path is therefore not disabled: on `New(50ms, uint64(-1))` the counter is compared
with `2^64 - 1` as with any other threshold (after two calls it is 2), and after `2^64 - 1`
calls in a row it has reached the threshold, so that the next call takes the reps-release path
and calls its function inline. -/
theorem C6_reps_path_reached :
    uint64OfInt (-1) = 2 ^ 64 - 1 ∧
    (New 50 (uint64OfInt (-1)) : World Job).d.reps = 2 ^ 64 - 1 ∧
    (run (New 50 (uint64OfInt (-1))) [Step.submit Job.A, Step.submit Job.B]).d.count = 2 ∧
    (add (run (New 50 (uint64OfInt (-1)))
        (List.replicate (2 ^ 64 - 1) (Step.submit Job.A))) Job.B).log =
      (run (New 50 (uint64OfInt (-1)))
        (List.replicate (2 ^ 64 - 1) (Step.submit Job.A))).log ++ [Event.sync Job.B] := by
  have hu : uint64OfInt (-1) = 2 ^ 64 - 1 := by decide
  refine ⟨hu, by decide, by decide, ?_⟩
  rw [fresh_add_log 50 (uint64OfInt (-1)) (by rw [hu]; decide) _ _ (calm_replicate _ _),
    submits_replicate, if_pos]
  rw [hu]
  decide

/-- C7 (superseding, last one wins). Let `add(f1)` take the delay path in a reachable state
and let `add(f2)` be the next call, made while the timer of `f1` (timer `tid1`, the length of
the heap before the first call) is still pending. Then `f1` is not called by its own call, and
its timer never fires in any continuation of the trace. As for `f2`: if the second call takes
the reps path, `f2` is called inline exactly once and no timer is created for it (none is
pending); otherwise the second call calls nothing, arms timer `tid1 + 1` for `f2` as the only
pending timer, that timer fires at most once in any continuation, always with `f2`, and exactly
once in every continuation in which it expires before any later call. -/
theorem C7_superseding {α : Type} (w : World α) (f1 f2 : α) (hw : Reachable w)
    (h : w.d.count ≠ w.d.reps) :
    (add w f1).log = w.log ∧
    pending (add w f1) = [w.timers.length] ∧
    (∀ cont : List (Step α),
      firings w.timers.length (run (add (add w f1) f2) cont).log = []) ∧
    ((add w f1).d.count = (add w f1).d.reps →
      (add (add w f1) f2).log = (add w f1).log ++ [Event.sync f2] ∧
      (add (add w f1) f2).timers.length = (add w f1).timers.length ∧
      pending (add (add w f1) f2) = []) ∧
    ((add w f1).d.count ≠ (add w f1).d.reps →
      (add (add w f1) f2).log = (add w f1).log ∧
      pending (add (add w f1) f2) = [w.timers.length + 1] ∧
      (add (add w f1) f2).timers[w.timers.length + 1]? =
        some { delay := w.d.after, f := f2, status := TimerStatus.armed } ∧
      (∀ cont : List (Step α),
        firings (w.timers.length + 1) (run (add (add w f1) f2) cont).log = [] ∨
        firings (w.timers.length + 1) (run (add (add w f1) f2) cont).log = [f2]) ∧
      (∀ pre post : List (Step α), quiet pre = true →
        firings (w.timers.length + 1)
          (run (add (add w f1) f2) (pre ++ Step.expire (w.timers.length + 1) :: post)).log =
          [f2])) := by
  have hi := Inv_of_reachable w hw
  have hr1 : Reachable (add w f1) := Reachable_step w (Step.submit f1) hw
  have hi1 := Inv_of_reachable _ hr1
  have hr2 : Reachable (add (add w f1) f2) := Reachable_step _ (Step.submit f2) hr1
  obtain ⟨hst1, hlen1, hnew1⟩ := add_delay_new w f1 h
  have hstop := add_stops_stored (add w f1) f2 w.timers.length _ hst1 hnew1 rfl
  refine ⟨by rw [add_log, if_neg h], pending_add_delay w f1 hi h, ?_, ?_, ?_⟩
  · intro cont
    have hent := run_getElem?_of_not_armed cont _ w.timers.length _ hstop (by simp)
    rw [firings_of_entry _ (Inv_of_reachable _ (Reachable_run _ cont hr2)) _ _ hent]
    simp
  · intro h2
    refine ⟨by rw [add_log, if_pos h2], ?_, ?_⟩
    · rw [add_timers, if_pos h2, stopTimer_length]
    · rw [add_reps _ f2 h2]
      exact pending_stopTimer _ hi1
  · intro h2
    obtain ⟨_, _, hnew2⟩ := add_delay_new (add w f1) f2 h2
    rw [hlen1, add_after_eq] at hnew2
    refine ⟨by rw [add_log, if_neg h2], ?_, hnew2, ?_, ?_⟩
    · rw [pending_add_delay _ f2 hi1 h2, hlen1]
    · intro cont
      obtain ⟨u, hu, hf⟩ := run_getElem?_f cont _ _ _ hnew2
      rw [firings_of_entry _ (Inv_of_reachable _ (Reachable_run _ cont hr2)) _ _ hu]
      by_cases hfired : u.status = TimerStatus.fired
      · right
        rw [if_pos hfired, hf]
      · left
        rw [if_neg hfired]
    · intro pre post hq
      have hfired : (run (add (add w f1) f2) (pre ++ [Step.expire (w.timers.length + 1)])).timers[
          w.timers.length + 1]? =
          some { delay := w.d.after, f := f2, status := TimerStatus.fired } := by
        rw [run_snoc]
        rcases quiet_run_getElem? pre _ _ _ hq hnew2 rfl with hp | hp
        · exact expire_fires _ _ _ hp rfl
        · exact expire_getElem?_of_not_armed _ _ _ _ hp (by simp)
      have hsplit : pre ++ Step.expire (w.timers.length + 1) :: post =
          (pre ++ [Step.expire (w.timers.length + 1)]) ++ post := by simp
      have hent := run_getElem?_of_not_armed post _ _ _ hfired (by simp)
      rw [← run_append, ← hsplit] at hent
      rw [firings_of_entry _ (Inv_of_reachable _ (Reachable_run _ _ hr2)) _ _ hent]
      simp

/-- Witness for C7: on the fresh `New(50ms, 3)`, `add(A)` then `add(B)`. Timer 0 (of `A`) never
fires; when timer 1 (of `B`) expires, `B` is called once. -/
theorem C7_superseding_witness :
    (Reachable (New 50 3 : World Job) ∧
      (New 50 3 : World Job).d.count ≠ (New 50 3 : World Job).d.reps) ∧
    (∀ cont : List (Step Job),
      firings (New 50 3 : World Job).timers.length
        (run (add (add (New 50 3) Job.A) Job.B) cont).log = []) :=
  ⟨⟨⟨50, 3, [], by decide, rfl⟩, by decide⟩,
    (C7_superseding (New 50 3) Job.A Job.B ⟨50, 3, [], by decide, rfl⟩ (by decide)).2.2.1⟩

/-- C8 (quiet-period release). On a fresh debouncer with `reps >= 1` and delay `D`, a single
`add(f)` calls nothing during the call and arms timer 0 with delay `D` and function `f`
(the state is `singleArmed`). With no further call, as long as that timer has not expired
nothing has been called (empty log, timer 0 pending); once it has expired the log is exactly
one call of `f`, made by timer 0, and nothing is pending; and in every call-free continuation
in which timer 0 expires, `f` ends up called exactly once, by that timer. -/
theorem C8_quiet_period {α : Type} (D : Int) (N : Nat) (hN : 1 ≤ N) (f : α) :
    add (New D N) f = singleArmed D N f ∧
    (add (New D N) f).log = [] ∧
    pending (add (New D N) f) = [0] ∧
    (add (New D N) f).timers[0]? = some { delay := D, f := f, status := TimerStatus.armed } ∧
    (∀ tr : List (Step α), quiet tr = true →
      ((run (add (New D N) f) tr).log = [] ∧ pending (run (add (New D N) f) tr) = [0]) ∨
      ((run (add (New D N) f) tr).log = [Event.fired 0 f] ∧
        pending (run (add (New D N) f) tr) = [])) ∧
    (∀ pre post : List (Step α), quiet pre = true → quiet post = true →
      (run (add (New D N) f) (pre ++ Step.expire 0 :: post)).log = [Event.fired 0 f]) := by
  rw [add_New D N hN f]
  refine ⟨rfl, rfl, rfl, rfl, ?_, ?_⟩
  · intro tr hq
    rcases quiet_run_singleArmed D N f tr hq with h | h
    · left
      rw [h]
      exact ⟨rfl, rfl⟩
    · right
      rw [h]
      exact ⟨rfl, rfl⟩
  · intro pre post hpre hpost
    have hmid : run (singleArmed D N f) (pre ++ [Step.expire 0]) = singleFired D N f := by
      rw [run_snoc]
      rcases quiet_run_singleArmed D N f pre hpre with h | h
      · rw [h]
        simp [step, expire_singleArmed]
      · rw [h]
        simp [step, expire_singleFired]
    have hsplit : pre ++ Step.expire 0 :: post = (pre ++ [Step.expire 0]) ++ post := by simp
    rw [hsplit, run_append, hmid, quiet_run_singleFired D N f post hpost]
    rfl

/-- Witness for C8: `New(50ms, 3)`, one call with `A`, then timer 0 expires. -/
theorem C8_quiet_period_witness :
    1 ≤ 3 ∧
    (add (New 50 3) Job.A).log = [] ∧
    (run (add (New 50 3) Job.A) ([] ++ Step.expire 0 :: [])).log = [Event.fired 0 Job.A] :=
  ⟨by decide, (C8_quiet_period 50 3 (by decide) Job.A).2.1,
    (C8_quiet_period 50 3 (by decide) Job.A).2.2.2.2.2 [] [] rfl rfl⟩

/-- C9 (timer-count invariant). In every state reachable from `New` by calls and timer
expiries at most one timer is armed; and every `add` is the stop of the stored timer followed
by the choice between the two paths, where the stop changes neither the debouncer record nor
the log and leaves no timer armed at the moment the choice is made. -/
theorem C9_at_most_one_timer {α : Type} (w : World α) (hw : Reachable w) :
    (pending w).length ≤ 1 ∧
    (∀ f : α, add w f = release (stopTimer w) f) ∧
    pending (stopTimer w) = [] ∧
    (stopTimer w).d = w.d ∧
    (stopTimer w).log = w.log ∧
    (∀ f : α, (pending (add w f)).length ≤ 1) := by
  have hi := Inv_of_reachable w hw
  refine ⟨pending_length_le_one w hi, fun f => rfl, pending_stopTimer w hi, stopTimer_d w,
    stopTimer_log w, fun f => pending_length_le_one _ (Inv_add w f hi)⟩

/-- Witness for C9: the state after the calls `A`, `B`, `C` on `New(50ms, 3)`. -/
theorem C9_at_most_one_timer_witness :
    Reachable burst3 ∧ (pending burst3).length ≤ 1 ∧ pending (stopTimer burst3) = [] :=
  ⟨⟨50, 3, _, by decide, rfl⟩,
    (C9_at_most_one_timer burst3 ⟨50, 3, _, by decide, rfl⟩).1,
    (C9_at_most_one_timer burst3 ⟨50, 3, _, by decide, rfl⟩).2.2.1⟩

/-- C10 (counter-range invariant). In every state reachable from `New(D, reps)`, with `reps`
a `uint64` value, by any trace of calls and timer expiries, `0 <= count <= reps`. -/
theorem C10_count_range {α : Type} (D : Int) (reps : Nat) (hreps : reps < uint64Mod)
    (tr : List (Step α)) :
    0 ≤ (run (New D reps : World α) tr).d.count ∧ (run (New D reps : World α) tr).d.count ≤ reps := by
  refine ⟨Nat.zero_le _, ?_⟩
  have := (Inv_run tr _ (Inv_New D reps hreps : Inv (New D reps : World α))).count_le
  rwa [run_reps] at this

/-- Witness for C10: `New(50ms, 3)` after four calls and one expiry attempt. -/
theorem C10_count_range_witness :
    3 < uint64Mod ∧
    (run (New 50 3 : World Job)
      [Step.submit Job.A, Step.submit Job.B, Step.expire 1, Step.submit Job.C,
        Step.submit Job.A]).d.count ≤ 3 :=
  ⟨by decide,
    (C10_count_range 50 3 (by decide)
      [Step.submit Job.A, Step.submit Job.B, Step.expire 1, Step.submit Job.C,
        Step.submit Job.A]).2⟩

/-- C11 (counterexample). On `New(50ms, 3)`, `add(A)` then `add(B)`, after which every timer
is allowed to expire: nothing is pending at the end, `B` has been called once by its timer, and
`A` has been called neither inline nor by its timer (timer 0 was stopped by the second call). -/
theorem C11_superseded_call_is_suppressed :
    pending (run (New 50 3)
      [Step.submit Job.A, Step.submit Job.B, Step.expire 0, Step.expire 1]) = [] ∧
    (run (New 50 3)
      [Step.submit Job.A, Step.submit Job.B, Step.expire 0, Step.expire 1]).log =
      [Event.fired 1 Job.B] ∧
    (run (New 50 3)
      [Step.submit Job.A, Step.submit Job.B, Step.expire 0, Step.expire 1]).timers[0]? =
      some { delay := 50, f := Job.A, status := TimerStatus.stopped } := by
  decide

/-- C11 (amended). In every reachable state, a call `add(f)` gets its function executed
provided no later call arrives while its timer is pending: on the reps path `f` is called
inline, within the call; on the delay path the call leaves the timer of `f` pending, and in
every continuation in which that timer expires before any later call, `f` is called exactly
once by that timer. (A call superseded before its timer expires is the one case of
suppression.) -/
theorem C11_executed_unless_superseded {α : Type} (w : World α) (f : α) (hw : Reachable w) :
    (w.d.count = w.d.reps → (add w f).log = w.log ++ [Event.sync f]) ∧
    (w.d.count ≠ w.d.reps →
      pending (add w f) = [w.timers.length] ∧
      (∀ pre post : List (Step α), quiet pre = true →
        firings w.timers.length
          (run (add w f) (pre ++ Step.expire w.timers.length :: post)).log = [f])) := by
  refine ⟨fun h => by rw [add_log, if_pos h], fun h => ?_⟩
  obtain ⟨_, _, hnew⟩ := add_delay_new w f h
  refine ⟨pending_add_delay w f (Inv_of_reachable w hw) h, ?_⟩
  intro pre post hq
  exact timer_fires_once (add w f) (Reachable_step w (Step.submit f) hw) _ _ hnew rfl pre post hq

/-- Witness for C11 (amended): after `add(A)` on `New(50ms, 3)`, the call `add(B)` is not
superseded and timer 1 expires: `B` is called once. -/
theorem C11_executed_unless_superseded_witness :
    Reachable afterA ∧
    firings afterA.timers.length
      (run (add afterA Job.B) ([] ++ Step.expire afterA.timers.length :: [])).log = [Job.B] :=
  ⟨⟨50, 3, _, by decide, rfl⟩,
    ((C11_executed_unless_superseded afterA Job.B ⟨50, 3, _, by decide, rfl⟩).2
      (by decide)).2 [] [] rfl⟩

/-- C12 (idempotent cancellation, at-most-once firing). In every reachable state: if the
stored timer has already fired or has already been stopped, `add(f)` (a total function: the
call always returns) leaves that timer as it is and adds no firing of it to the log; along
every continuation every timer has fired at most once; and the function of this call is called
at most once: on the reps path exactly once inline with no timer created for it, on the delay
path never inline and at most once, as `f`, by its own timer in any continuation. -/
theorem C12_idempotent_stop {α : Type} (w : World α) (f : α) (hw : Reachable w) :
    (∀ (tid : Nat) (t : Timer α), w.d.timer = some tid → w.timers[tid]? = some t →
      t.status ≠ TimerStatus.armed →
      (add w f).timers[tid]? = some t ∧ firings tid (add w f).log = firings tid w.log) ∧
    (∀ (tid : Nat) (cont : List (Step α)), (firings tid (run w cont).log).length ≤ 1) ∧
    (w.d.count = w.d.reps →
      (add w f).log = w.log ++ [Event.sync f] ∧ (add w f).timers.length = w.timers.length) ∧
    (w.d.count ≠ w.d.reps →
      (add w f).log = w.log ∧
      (∀ cont : List (Step α),
        firings w.timers.length (run (add w f) cont).log = [] ∨
        firings w.timers.length (run (add w f) cont).log = [f])) := by
  refine ⟨?_, ?_, ?_, ?_⟩
  · intro tid t _ ht hna
    refine ⟨add_getElem?_of_not_armed w f tid t ht hna, ?_⟩
    rw [add_log]
    split
    · simp [firings_append, firings]
    · rfl
  · intro tid cont
    exact firings_length_le_one _ (Inv_of_reachable _ (Reachable_run w cont hw)) tid
  · intro h
    refine ⟨by rw [add_log, if_pos h], ?_⟩
    rw [add_timers, if_pos h, stopTimer_length]
  · intro h
    refine ⟨by rw [add_log, if_neg h], ?_⟩
    intro cont
    obtain ⟨_, _, hnew⟩ := add_delay_new w f h
    exact timer_fires_at_most_once (add w f) (Reachable_step w (Step.submit f) hw) _ _ hnew cont

/-- Witness for C12: on `New(50ms, 3)` the timer of `A` has fired; `add(B)` then stops it
again, which changes nothing: timer 0 stays fired and `A` stays called once. -/
theorem C12_idempotent_stop_witness :
    Reachable firedA ∧
    firedA.d.timer = some 0 ∧
    firedA.timers[0]? = some { delay := 50, f := Job.A, status := TimerStatus.fired } ∧
    (add firedA Job.B).timers[0]? =
      some { delay := 50, f := Job.A, status := TimerStatus.fired } ∧
    firings 0 (add firedA Job.B).log = firings 0 firedA.log :=
  ⟨⟨50, 3, _, by decide, rfl⟩, by decide, by decide,
    (C12_idempotent_stop firedA Job.B ⟨50, 3, _, by decide, rfl⟩).1 0 _
      (by decide) (by decide) (by decide)⟩

/-- C13 (serialization of concurrent calls). Let the calls `add(f)`, `f` in `fs`, run
concurrently (statement by statement, under any schedule, with any timer expiries in between)
on a debouncer in a reachable state `w`, for functions that do not call the debounced function
themselves. Then at most one goroutine is ever between `Lock` and the return of `add`, and the
mutex is locked exactly then. Whenever the mutex is free, the debouncer state equals the result
of the sequential run of the calls completed so far, in the order in which they acquired the
mutex (with the timer firings in between). When all calls have returned, the mutex is free and
that order is a permutation of `fs`; and every schedule can be extended to one after which all
calls have returned (no deadlock). The latest call in that order stands: if it took the reps
path its inline call ends the log and nothing is pending; otherwise the only timer that can be
pending is the one it armed, for its function. -/
theorem C13_serialization {α : Type} (w : World α) (hw : Reachable w) (fs : List α)
    (sched : List Choice) :
    (critical (crun noReentry (start w fs) sched)).length ≤ 1 ∧
    ((crun noReentry (start w fs) sched).locked = true ↔
      critical (crun noReentry (start w fs) sched) ≠ []) ∧
    ((crun noReentry (start w fs) sched).locked = false →
      (crun noReentry (start w fs) sched).w = run w (linearize noReentry (start w fs) sched) ∧
      submitted (linearize noReentry (start w fs) sched) =
        lockOrder noReentry (start w fs) sched) ∧
    (allDone (crun noReentry (start w fs) sched) →
      (crun noReentry (start w fs) sched).locked = false ∧
      List.Perm (lockOrder noReentry (start w fs) sched) fs) ∧
    (∀ (tr : List (Step α)) (f : α) (tail : List (Step α)),
      linearize noReentry (start w fs) sched = tr ++ Step.submit f :: tail →
      quiet tail = true →
      (crun noReentry (start w fs) sched).locked = false →
      ((run w tr).d.count = (run w tr).d.reps →
        pending (crun noReentry (start w fs) sched).w = [] ∧
        (crun noReentry (start w fs) sched).w.log = (run w tr).log ++ [Event.sync f]) ∧
      ((run w tr).d.count ≠ (run w tr).d.reps →
        ∀ tid ∈ pending (crun noReentry (start w fs) sched).w,
          tid = (run w tr).timers.length ∧
          (crun noReentry (start w fs) sched).w.timers[tid]? =
            some { delay := (run w tr).d.after, f := f, status := TimerStatus.armed })) ∧
    (∃ more : List Choice, allDone (crun noReentry (start w fs) (sched ++ more))) := by
  have hs := Ser_of_start w hw fs sched
  have hfree : (crun noReentry (start w fs) sched).locked = false →
      (crun noReentry (start w fs) sched).w = run w (linearize noReentry (start w fs) sched) ∧
      submitted (linearize noReentry (start w fs) sched) =
        lockOrder noReentry (start w fs) sched := by
    intro hl
    rcases hs.state with ⟨_, _, hw', hacq⟩ | ⟨hl', _⟩
    · exact ⟨hw', hacq⟩
    · rw [hl] at hl'
      cases hl'
  refine ⟨?_, ?_, hfree, ?_, ?_, ?_⟩
  rotate_left 4
  · obtain ⟨more, hmore⟩ := Ser_complete w hw fs _ _ _ _ hs (le_refl _)
    exact ⟨more, by rw [crun_append]; exact hmore⟩
  · rcases hs.state with ⟨_, hnil, _, _⟩ | ⟨_, fr, hone, _, _⟩
    · simp [hnil]
    · simp [hone]
  · rcases hs.state with ⟨hl, hnil, _, _⟩ | ⟨hl, fr, hone, _, _⟩
    · simp [hl, hnil]
    · simp [hl, hone]
  · intro hdone
    obtain ⟨hcr, hwt⟩ := allDone_lists _ hdone
    refine ⟨?_, ?_⟩
    · rcases hs.state with ⟨hl, _, _, _⟩ | ⟨_, fr, hone, _, _⟩
      · exact hl
      · rw [hcr] at hone
        cases hone
    · have := hs.perm
      rwa [hwt, List.append_nil] at this
  · intro tr f tail hlin hq hl
    have hw' := (hfree hl).1
    have hsplit : tr ++ Step.submit f :: tail = (tr ++ [Step.submit f]) ++ tail := by simp
    rw [hlin, hsplit, run_append, run_snoc] at hw'
    simp only [step] at hw'
    have hbase : Inv (run w tr) := Inv_of_reachable _ (Reachable_run w tr hw)
    refine ⟨?_, ?_⟩
    · intro hc
      have hp : pending (add (run w tr) f) = [] := by
        rw [add_reps _ f hc]
        exact pending_stopTimer _ hbase
      rw [hw', quiet_run_of_no_pending tail _ hq hp]
      exact ⟨hp, by rw [add_log, if_pos hc]⟩
    · intro hc tid htid
      rw [hw'] at htid ⊢
      obtain ⟨t, ht, hta⟩ := (mem_pending _ tid).mp htid
      have hback := quiet_run_armed_back tail _ tid t hq ht hta
      have hin : tid ∈ pending (add (run w tr) f) := (mem_pending _ tid).mpr ⟨t, hback, hta⟩
      rw [pending_add_delay _ f hbase hc] at hin
      have htid' : tid = (run w tr).timers.length := by simpa using hin
      refine ⟨htid', ?_⟩
      rw [ht, ← hback, htid']
      exact (add_delay_new _ f hc).2.2

/-- Witness for C13: `add(A)` and `add(B)` run concurrently on `New(50ms, 1)` under the
schedule `interleaved`. Both calls return; `B` acquired the mutex first, its timer fired, then
`A` ran inline. -/
theorem C13_serialization_witness :
    Reachable (New 50 1 : World Job) ∧
    allDone (crun noReentry (start (New 50 1) [Job.A, Job.B]) interleaved) ∧
    lockOrder noReentry (start (New 50 1) [Job.A, Job.B]) interleaved = [Job.B, Job.A] ∧
    ((crun noReentry (start (New 50 1) [Job.A, Job.B]) interleaved).locked = false ∧
      List.Perm (lockOrder noReentry (start (New 50 1) [Job.A, Job.B]) interleaved)
        [Job.A, Job.B]) :=
  ⟨⟨50, 1, [], by decide, rfl⟩, by unfold allDone; decide, by decide,
    (C13_serialization (New 50 1) ⟨50, 1, [], by decide, rfl⟩ [Job.A, Job.B]
      interleaved).2.2.2.1 (by unfold allDone; decide)⟩

/-- C14 (counterexample). On `New(50ms, 1)` the traces `add(A), add(B)` and
`add(A), add(B)` with a `B` that panics inside the call hold the same number of calls, and no
timer expires in either; yet after the first the third call, `add(C)`, arms a timer and calls
nothing, and after the second it runs `C` inline. -/
theorem C14_inline_depends_on_panic :
    submits [Step.submit Job.A, Step.submit Job.B] =
      submits [Step.submit Job.A, Step.submitPanic Job.B] ∧
    (add (run (New 50 1) [Step.submit Job.A, Step.submit Job.B]) Job.C).log =
      (run (New 50 1) [Step.submit Job.A, Step.submit Job.B]).log ∧
    (add panicked1 Job.C).log = panicked1.log ++ [Event.sync Job.C] := by
  decide

/-- C14 (amended: reset asymmetry). On `New(D, N)`: a timer expiry leaves `count` unchanged,
and a transition leaves `count = 0` only if it is an expiry in a state where `count` was
already 0 or a call that takes the reps path. Along traces in which every submitted function
returns when it is called (`calm`), the counter is the number of calls modulo `N + 1`, whatever timers
expired; hence whether the next call runs its function inline is the same for any two such
traces with the same number of calls, and it does so exactly when that number is `N` modulo
`N + 1`: calls separated by quiet periods in which their timers fire accumulate toward the
forced release like back-to-back calls. -/
theorem C14_reset_asymmetry {α : Type} (D : Int) (N : Nat) (hN : N < uint64Mod)
    (tr₁ tr₂ : List (Step α)) (f g : α) (s : Step α) (tid : Nat)
    (hc₁ : calm tr₁ = true) (hc₂ : calm tr₂ = true) :
    (expire (run (New D N) tr₁) tid).d.count = (run (New D N : World α) tr₁).d.count ∧
    ((step (run (New D N) tr₁) s).d.count = 0 →
      ((run (New D N : World α) tr₁).d.count = 0 ∧ ∃ i, s = Step.expire i) ∨
      ((∃ h, s = Step.submit h ∨ s = Step.submitPanic h) ∧
        (run (New D N : World α) tr₁).d.count = (run (New D N : World α) tr₁).d.reps)) ∧
    (run (New D N : World α) tr₁).d.count = submits tr₁ % (N + 1) ∧
    ((add (run (New D N) tr₁) f).log = (run (New D N) tr₁).log ++ [Event.sync f] ↔
      submits tr₁ % (N + 1) = N) ∧
    (submits tr₁ = submits tr₂ →
      ((add (run (New D N) tr₁) f).log = (run (New D N) tr₁).log ++ [Event.sync f] ↔
        (add (run (New D N) tr₂) g).log = (run (New D N) tr₂).log ++ [Event.sync g])) := by
  have hinv : Inv (run (New D N : World α) tr₁) := Inv_run tr₁ _ (Inv_New D N hN)
  have hsync : ∀ (tr : List (Step α)) (k : α), calm tr = true →
      ((add (run (New D N) tr) k).log = (run (New D N) tr).log ++ [Event.sync k] ↔
        submits tr % (N + 1) = N) := by
    intro tr k hc
    rw [fresh_add_log D N hN tr k hc]
    by_cases h : submits tr % (N + 1) = N
    · simp [h]
    · simp [h]
  refine ⟨by rw [expire_d], ?_, count_run D N hN tr₁ hc₁, hsync tr₁ f hc₁, ?_⟩
  · intro h0
    cases s with
    | expire i =>
      left
      simp only [step, expire_d] at h0
      exact ⟨h0, i, rfl⟩
    | submit h =>
      right
      refine ⟨⟨h, Or.inl rfl⟩, ?_⟩
      simp only [step] at h0
      rw [add_count_of_Inv _ h hinv] at h0
      by_contra hne
      rw [if_neg hne] at h0
      omega
    | submitPanic h =>
      right
      refine ⟨⟨h, Or.inr rfl⟩, ?_⟩
      simp only [step] at h0
      rw [addPanic_count, add_count_of_Inv _ h hinv] at h0
      by_contra hne
      rw [if_neg hne, if_neg hne] at h0
      omega
  · intro heq
    rw [hsync tr₁ f hc₁, hsync tr₂ g hc₂, heq]

/-- Witness for C14 (amended): on `New(50ms, 3)`, three calls each followed by the expiry of
its timer leave `count = 3`, like three calls in a row, and the fourth call runs its function
inline. -/
theorem C14_reset_asymmetry_witness :
    (3 < uint64Mod ∧ calm spaced = true ∧ calm ([] : List (Step Job)) = true) ∧
    (run (New 50 3 : World Job) spaced).d.count = submits spaced % (3 + 1) ∧
    ((add (run (New 50 3) spaced) Job.A).log =
        (run (New 50 3) spaced).log ++ [Event.sync Job.A] ↔
      submits spaced % (3 + 1) = 3) :=
  ⟨⟨by decide, rfl, rfl⟩,
    (C14_reset_asymmetry 50 3 (by decide) spaced [] Job.A Job.A (Step.expire 0) 0
      rfl rfl).2.2.1,
    (C14_reset_asymmetry 50 3 (by decide) spaced [] Job.A Job.A (Step.expire 0) 0
      rfl rfl).2.2.2.1⟩

/-- C15 (counterexample). On `New(50ms, 3)`, after `add(A)` and the expiry of its timer, `A`
has been released by the timer, so no call has been made since the last release, yet `count`
is 1, not 0. Likewise on `New(50ms, 1)`, after `add(A)` and `add(B)` where `B` is run inline
and panics: `B` has been released, no call has been made since, yet `count` is 1. -/
theorem C15_count_not_reset_by_timer :
    (run (New 50 3) [Step.submit Job.A, Step.expire 0]).log = [Event.fired 0 Job.A] ∧
    sinceRelease (New 50 3) [Step.submit Job.A, Step.expire 0] 0 = 0 ∧
    (run (New 50 3) [Step.submit Job.A, Step.expire 0]).d.count = 1 ∧
    panicked1.log = [Event.sync Job.B] ∧
    sinceRelease (New 50 1) [Step.submit Job.A, Step.submitPanic Job.B] 0 = 0 ∧
    panicked1.d.count = 1 := by
  decide

/-- C15 (amended). In every state reached from `New(D, N)` by a trace in which every submitted
function returns when it is called (`calm`), `count` equals the number of calls made since the last forced
release (the last call that ran its function inline), or since `New` if there was none; it is
0 immediately after every forced release whose function returns, and a timer expiry leaves it
as it is. -/
theorem C15_count_since_forced {α : Type} (D : Int) (N : Nat) (hN : N < uint64Mod)
    (tr : List (Step α)) (f : α) (tid : Nat) (hcalm : calm tr = true) :
    (run (New D N : World α) tr).d.count = sinceForced (New D N) tr 0 ∧
    ((add (run (New D N) tr) f).log = (run (New D N) tr).log ++ [Event.sync f] →
      (add (run (New D N) tr) f).d.count = 0) ∧
    (expire (run (New D N) tr) tid).d.count = (run (New D N : World α) tr).d.count := by
  have hinv : Inv (run (New D N : World α) tr) := Inv_run tr _ (Inv_New D N hN)
  refine ⟨sinceForced_run tr _ (Inv_New D N hN) hcalm, ?_, by rw [expire_d]⟩
  intro hlog
  rw [add_count_of_Inv _ f hinv]
  by_cases h : (run (New D N : World α) tr).d.count = (run (New D N : World α) tr).d.reps
  · rw [if_pos h]
  · rw [add_log, if_neg h] at hlog
    have := congrArg List.length hlog
    simp at this

/-- Witness for C15 (amended): `New(50ms, 3)` after `spaced`, three calls whose timers all
fired: no forced release yet, `count = 3`. -/
theorem C15_count_since_forced_witness :
    (3 < uint64Mod ∧ calm spaced = true) ∧
    (run (New 50 3 : World Job) spaced).d.count = sinceForced (New 50 3) spaced 0 ∧
    sinceForced (New 50 3) spaced 0 = 3 :=
  ⟨⟨by decide, rfl⟩, (C15_count_since_forced 50 3 (by decide) spaced Job.A 0 rfl).1,
    by decide⟩

/-- C16 (counterexample). On `New(50ms, 0)` every call takes the reps path. Let `A` be a
function that calls the debounced function (with `B`). After the first four statements of
`add(A)` the function `A` is running (its call is logged) while the mutex is locked, its inner
call waits at `Lock`, and no schedule ever changes this configuration: the call never returns. -/
theorem C16_inline_call_deadlocks :
    crun reenter (start (New 50 0) [Job.A]) (List.replicate 4 (Choice.thread 0)) = stuck ∧
    stuck.locked = true ∧
    stuck.w.log = [Event.sync Job.A] ∧
    (∀ sched : List Choice, crun reenter stuck sched = stuck) ∧
    ¬ allDone stuck := by
  refine ⟨by decide, rfl, rfl, crun_stuck, ?_⟩
  unfold allDone
  decide

/-- C16 (amended). The state of the mutex changes only at the `Lock` and the deferred `Unlock`
of `add`, so it is held for the whole body of `add`: on the reps path the inline call of the
function is made with the mutex locked. A timer expiry neither needs nor changes the mutex,
and the function it calls runs in a goroutine of its own: if the timer fires while the mutex
is free, its function calls the debounced function with `g`, and `g` does not itself call the
debounced function or the call takes the delay path (`count != reps`), then the six statements
of that call, run one after the other, take the call to its return and leave the mutex free,
with the effect of `add(g)`. -/
theorem C16_lock_scope {α : Type} (body : α → Option α) (c : Config α) (w : World α) (f g : α)
    (tid : Nat) (t : Timer α) (ch : Choice) :
    ((cstep body c ch).locked ≠ c.locked →
      ∃ i fr rest, ch = Choice.thread i ∧ c.threads[i]? = some (fr :: rest) ∧
        (fr.pc = Pc.lock ∨ fr.pc = Pc.unlock)) ∧
    (w.d.count = w.d.reps →
      crun body (start w [f]) (List.replicate 3 (Choice.thread 0)) =
        { w := stopTimer w, locked := true, threads := [[{ pc := Pc.call, f := f }]] } ∧
      (crun body (start w [f]) (List.replicate 4 (Choice.thread 0))).locked = true ∧
      (crun body (start w [f]) (List.replicate 4 (Choice.thread 0))).w.log =
        w.log ++ [Event.sync f]) ∧
    ((cstep body c (Choice.expire tid)).w = expire c.w tid ∧
      (cstep body c (Choice.expire tid)).locked = c.locked) ∧
    (c.locked = false → c.w.timers[tid]? = some t → t.status = TimerStatus.armed →
      body t.f = some g → (body g = none ∨ c.w.d.count ≠ c.w.d.reps) →
      crun body c (Choice.expire tid :: List.replicate 6 (Choice.thread c.threads.length)) =
        { w := add (expire c.w tid) g, locked := false, threads := c.threads ++ [[]] }) := by
  refine ⟨cstep_locked body c ch, ?_, cexpire_w body c tid,
    fun hl ht ha hb hg => timer_call_completes body c tid t g hl ht ha hb hg⟩
  intro hc
  have h3 : crun body (start w [f]) (List.replicate 3 (Choice.thread 0)) =
      { w := stopTimer w, locked := true, threads := [[{ pc := Pc.call, f := f }]] } := by
    simp [crun, List.replicate, cstep, frameStep, start, stopTimer_d, hc]
  have h4 : crun body (start w [f]) (List.replicate 4 (Choice.thread 0)) =
      cstep body (crun body (start w [f]) (List.replicate 3 (Choice.thread 0)))
        (Choice.thread 0) := by
    have : List.replicate 4 (Choice.thread 0) =
        List.replicate 3 (Choice.thread 0) ++ [Choice.thread 0] := rfl
    rw [this, crun_append]
    rfl
  refine ⟨h3, ?_, ?_⟩
  · rw [h4, h3]
    simp [cstep, frameStep]
  · rw [h4, h3]
    simp [cstep, frameStep, stopTimer_log]

/-- Witness for C16 (amended): on `New(50ms, 3)` after `add(A)`, the timer of `A` fires while
the mutex is free; `A` calls the debounced function with `B`, and that call runs to its
return. -/
theorem C16_lock_scope_witness :
    ({ w := afterA, locked := false, threads := [] } : Config Job).locked = false ∧
    afterA.timers[0]? = some { delay := 50, f := Job.A, status := TimerStatus.armed } ∧
    reenter Job.A = some Job.B ∧
    crun reenter { w := afterA, locked := false, threads := [] }
        (Choice.expire 0 :: List.replicate 6 (Choice.thread 0)) =
      { w := add (expire afterA 0) Job.B, locked := false, threads := [[]] } :=
  ⟨rfl, by decide, rfl,
    (C16_lock_scope reenter { w := afterA, locked := false, threads := [] } afterA Job.A Job.B 0
      { delay := 50, f := Job.A, status := TimerStatus.armed } (Choice.thread 0)).2.2.2
      rfl (by decide) rfl rfl (Or.inl rfl)⟩

/-- C17 (no counter overflow). For every `uint64` value `reps` and every state reachable from
`New(D, reps)`: `count` is below `2^64`; when `add` takes the delay path, `count + 1` is still
below `2^64`, so `d.count++` does not wrap; and the run of the machine with `uint64` arithmetic
equals, state for state, the run of the same machine over unbounded natural numbers, for the
trace itself and for any further call. -/
theorem C17_no_overflow {α : Type} (D : Int) (reps : Nat) (hreps : reps < uint64Mod)
    (tr : List (Step α)) (f : α) :
    (run (New D reps : World α) tr).d.count < uint64Mod ∧
    ((run (New D reps : World α) tr).d.count ≠ (run (New D reps : World α) tr).d.reps →
      (run (New D reps : World α) tr).d.count + 1 < uint64Mod ∧
      (add (run (New D reps) tr) f).d.count = (run (New D reps : World α) tr).d.count + 1) ∧
    run (New D reps) tr = runNat (New D reps) tr ∧
    add (run (New D reps) tr) f = addNat (runNat (New D reps) tr) f := by
  have hinv : Inv (run (New D reps : World α) tr) := Inv_run tr _ (Inv_New D reps hreps)
  have h₁ := hinv.count_le
  have h₂ := hinv.reps_lt
  have hrun := runNat_eq tr _ (Inv_New D reps hreps : Inv (New D reps : World α))
  refine ⟨by omega, ?_, hrun.symm, ?_⟩
  · intro hne
    refine ⟨by omega, ?_⟩
    rw [add_count_of_Inv _ f hinv, if_neg hne]
  · rw [hrun, addNat_eq _ f hinv]

/-- Witness for C17: the largest threshold, `reps = 2^64 - 1`, after two calls. -/
theorem C17_no_overflow_witness :
    2 ^ 64 - 1 < uint64Mod ∧
    run (New 50 (2 ^ 64 - 1)) [Step.submit Job.A, Step.submit Job.B] =
      runNat (New 50 (2 ^ 64 - 1)) [Step.submit Job.A, Step.submit Job.B] :=
  ⟨by decide,
    (C17_no_overflow 50 (2 ^ 64 - 1) (by decide) [Step.submit Job.A, Step.submit Job.B]
      Job.A).2.2.1⟩

end Debounce
